import Mathlib

/-!
Verification development for the Floor request-dispatch core.

The definitions below shallowly embed `src/router.rs` (path-pattern
compiler, route table, matching) and `src/middleware.rs` (middleware
pipeline with halt/continue/error semantics), together with the
`not_found_handler` appended by `Nickel::listen` in `src/nickel.rs`.
Strings are modelled as `List Char`; Rust's `HashMap` is modelled as an
insert-overwrite association list; a Rust panic (`fail!`) during route
registration is modelled as `Option.none`.
-/

set_option maxRecDepth 10000

namespace Floor

/-- HTTP methods used by the router (from the `http::method` enum). -/
inductive Method where
  | GET
  | POST
  | PUT
  | DELETE
  | HEAD
deriving DecidableEq, Repr

/-- HTTP status codes needed by the embedded code (from `http::status`). -/
inductive Status where
  | OkStatus
  | NotFound
  | BadRequest
  | InternalServerError
deriving DecidableEq, Repr

/-- the `NickelErrorKind` enum from `src/nickel_error.rs`. -/
inductive NickelErrorKind where
  | ErrorWithStatusCode : Status → NickelErrorKind
  | UserDefinedError : Int → String → NickelErrorKind
  | Other : NickelErrorKind
deriving DecidableEq, Repr

/-- the `NickelError` struct from `src/nickel_error.rs`: a kind plus a message. -/
structure NickelError where
  kind : NickelErrorKind
  message : String
deriving DecidableEq, Repr

/-! ## Path-pattern compiler (`src/router.rs`, `PathUtils`)

The compiler builds a regular-expression string by textual replacement and
hands it to `Regex::new`.  The regex crate is an external dependency; it is
modelled here by a parser for exactly the regex dialect `create_regex`
produces (anchors, literal characters, character classes with ranges,
starred classes, capture groups, an optional group, backslash escapes) and
a leftmost-first greedy backtracking matcher with capture extraction, which
is the matching discipline of the crate.  `Regex::new` on anything outside
this dialect is modelled conservatively as a failure. -/

/-- membership test for the character class `[,a-zA-Z0-9_-]` used by
`REGEX_VAR_SEQ`, `VAR_SEQ` and `VAR_SEQ_WITH_CAPTURE` in `src/router.rs`. -/
def varClassChar (c : Char) : Bool :=
  c = ',' || ('a' ≤ c && c ≤ 'z') || ('A' ≤ c && c ≤ 'Z') ||
  ('0' ≤ c && c ≤ '9') || c = '_' || c = '-'

/-- `VAR_SEQ` from `src/router.rs`: regex source for one unnamed
single-segment wildcard. -/
def VAR_SEQ : List Char :=
  ['[', ',', 'a', '-', 'z', 'A', '-', 'Z', '0', '-', '9', '_', '-', ']', '*']

/-- `VAR_SEQ_WITH_SLASH` from `src/router.rs`: regex source for the
double wildcard, additionally allowing `/`. -/
def VAR_SEQ_WITH_SLASH : List Char :=
  ['[', ',', '/', 'a', '-', 'z', 'A', '-', 'Z', '0', '-', '9', '_', '-', ']', '*']

/-- `VAR_SEQ_WITH_CAPTURE` from `src/router.rs`: the capturing variant of
`VAR_SEQ`, substituted for `:name` variables. -/
def VAR_SEQ_WITH_CAPTURE : List Char :=
  ['(', '[', ',', 'a', '-', 'z', 'A', '-', 'Z', '0', '-', '9', '_', '-', ']', '*', ')']

/-- `REGEX_PARAM_SEQ` from `src/router.rs`: the optional trailing
query-string group `(\?[a-zA-Z0-9_=&-]*)?`. -/
def REGEX_PARAM_SEQ : List Char :=
  ['(', '\\', '?', '[', 'a', '-', 'z', 'A', '-', 'Z', '0', '-', '9', '_', '=', '&', '-', ']', '*', ')', '?']

/-- `REGEX_START` from `src/router.rs`. -/
def REGEX_START : List Char :=
  ['^']

/-- `REGEX_END` from `src/router.rs`. -/
def REGEX_END : List Char :=
  ['$']

/-- the replacement marker for double wildcards in
`PathUtils::create_regex`. -/
def DOUBLE_MARK : List Char :=
  ['_', '_', '_', 'D', 'O', 'U', 'B', 'L', 'E', '_', 'W', 'I', 'L', 'D', 'C', 'A', 'R', 'D', '_', '_', '_']

/-- Rust's `str::replace` (leftmost, non-overlapping, the replacement text
is never rescanned) specialised to the pattern `**`:
`route_path.replace("**", "___DOUBLE_WILDCARD___")` in
`PathUtils::create_regex`. -/
def replaceDoubleWild : List Char → List Char
  | [] => []
  | [c] => [c]
  | c :: d :: rest =>
    if c = '*' ∧ d = '*' then DOUBLE_MARK ++ replaceDoubleWild rest
    else c :: replaceDoubleWild (d :: rest)

/-- Rust's `str::replace` specialised to the pattern `*`:
`.replace("*", VAR_SEQ)` in `PathUtils::create_regex`. -/
def replaceSingleWild : List Char → List Char
  | [] => []
  | c :: rest =>
    if c = '*' then VAR_SEQ ++ replaceSingleWild rest
    else c :: replaceSingleWild rest

/-- worker for `replaceMark`, structurally recursive on a fuel bound. -/
def replaceMarkF : Nat → List Char → List Char
  | _, [] => []
  | 0, s => s
  | fuel + 1, c :: rest =>
    if DOUBLE_MARK.isPrefixOf (c :: rest) then
      VAR_SEQ_WITH_SLASH ++ replaceMarkF fuel ((c :: rest).drop DOUBLE_MARK.length)
    else c :: replaceMarkF fuel rest

/-- Rust's `str::replace` specialised to the marker pattern:
`.replace("___DOUBLE_WILDCARD___", VAR_SEQ_WITH_SLASH)` in
`PathUtils::create_regex`.  The fuel argument of the worker only bounds
the recursion; one unit per consumed character always suffices (the
fuel-exhausted arm is unreachable for the initial fuel). -/
def replaceMark (s : List Char) : List Char :=
  replaceMarkF s.length s

/-- worker for `replaceVarSeq`: replaces every occurrence of the regex
`:([,a-zA-Z0-9_-]*)` (a colon followed by the greedy run of name
characters) by `VAR_SEQ_WITH_CAPTURE`, continuing after the matched text;
the flag records whether we are currently skipping a matched name run. -/
def replaceVarSeqGo : List Char → Bool → List Char
  | [], _ => []
  | c :: rest, true =>
    if varClassChar c then replaceVarSeqGo rest true
    else if c = ':' then VAR_SEQ_WITH_CAPTURE ++ replaceVarSeqGo rest true
    else c :: replaceVarSeqGo rest false
  | c :: rest, false =>
    if c = ':' then VAR_SEQ_WITH_CAPTURE ++ replaceVarSeqGo rest true
    else c :: replaceVarSeqGo rest false

/-- `REGEX_VAR_SEQ.replace_all(s, VAR_SEQ_WITH_CAPTURE)` from
`PathUtils::create_regex`. -/
def replaceVarSeq (s : List Char) : List Char :=
  replaceVarSeqGo s false

/-- the regex-source string built by `PathUtils::create_regex`
(`src/router.rs` lines 62-78): mark double wildcards, replace single
wildcards, replace the marks, replace named variables, then anchor and
append the optional query-string group. -/
def create_regex_string (route_path : List Char) : List Char :=
  let updated_path := replaceMark (replaceSingleWild (replaceDoubleWild route_path))
  REGEX_START ++ replaceVarSeq updated_path ++ REGEX_PARAM_SEQ ++ REGEX_END

/-- worker for `collectVarNames`: the group-1 texts of the successive
matches of `REGEX_VAR_SEQ` (`:([,a-zA-Z0-9_-]*)`), i.e. the variable
names in left-to-right order; `some acc` records the reversed name run
currently being read. -/
def collectVarsGo : List Char → Option (List Char) → List (List Char)
  | [], pending =>
    match pending with
    | some acc => [acc.reverse]
    | none => []
  | c :: rest, some acc =>
    if varClassChar c then collectVarsGo rest (some (c :: acc))
    else if c = ':' then acc.reverse :: collectVarsGo rest (some [])
    else acc.reverse :: collectVarsGo rest none
  | c :: rest, none =>
    if c = ':' then collectVarsGo rest (some []) else collectVarsGo rest none

/-- the variable names captured by `REGEX_VAR_SEQ.captures_iter` in
`PathUtils::get_variable_info`, in order of appearance. -/
def collectVarNames (route_path : List Char) : List (List Char) :=
  collectVarsGo route_path none

/-- Rust `HashMap` insert modelled on an association list: overwrite the
existing binding in place or append a fresh one. -/
def hmInsert {α : Type} : List (String × α) → String → α → List (String × α)
  | [], k, v => [(k, v)]
  | (k0, v0) :: rest, k, v =>
    if k0 = k then (k, v) :: rest else (k0, v0) :: hmInsert rest k v

/-- `PathUtils::get_variable_info` (`src/router.rs` lines 86-91): pair
each variable occurrence with its zero-based index and collect into a
`HashMap` (later occurrences of the same name overwrite earlier ones). -/
def get_variable_info (route_path : List Char) : List (String × Nat) :=
  ((collectVarNames route_path).enum.map (fun iv => (String.mk iv.2, iv.1))).foldl
    (fun m nv => hmInsert m nv.1 nv.2) []

/-- an atomic regex form occurring in the compiled dialect: a literal
character, a character class (list of inclusive ranges), or a greedily
starred character class. -/
inductive RAtom where
  | lit : Char → RAtom
  | cls : List (Char × Char) → RAtom
  | clsStar : List (Char × Char) → RAtom
deriving DecidableEq, Repr

/-- a sequence element of a compiled regex: an atom, a capture group over
atoms, or an optional (greedy `?`) capture group over atoms. -/
inductive RItem where
  | atom : RAtom → RItem
  | group : List RAtom → RItem
  | groupOpt : List RAtom → RItem
deriving DecidableEq, Repr

/-- a compiled regex: an anchored (`^`...`$`) sequence of items. -/
abbrev RE := List RItem

/-- regex metacharacters: anything else stands for itself. -/
def isMeta (c : Char) : Bool :=
  c = '^' || c = '$' || c = '(' || c = ')' || c = '[' || c = ']' || c = '*' ||
  c = '?' || c = '\\' || c = '+' || c = '.' || c = '|' || c = '{' || c = '}'

/-- sub-state while reading a character class: at a boundary, holding one
character that may begin a range, or having just read `c-`. -/
inductive ClsSub where
  | boundary
  | pending (c : Char)
  | dash (c : Char)
deriving DecidableEq, Repr

/-- parser mode: ordinary scanning, after a backslash, inside a class,
just after a closed class (a `*` may follow), just after a closed group
(a `?` may follow), or after the final `$`. -/
inductive PMode where
  | plain
  | esc
  | inCls (ranges : List (Char × Char)) (sub : ClsSub)
  | afterCls (ranges : List (Char × Char))
  | afterGrp (atoms : List RAtom)
  | done
deriving DecidableEq, Repr

/-- parser state: completed top-level items (reversed), the atoms of the
currently open group if any (reversed), and the current mode. -/
structure PSt where
  items : List RItem
  ctx : Option (List RAtom)
  mode : PMode
deriving DecidableEq, Repr

/-- append one atom to the open group, or as a top-level item. -/
def emitAtom (st : PSt) (a : RAtom) : PSt :=
  match st.ctx with
  | some atoms => { st with ctx := some (a :: atoms) }
  | none => { st with items := RItem.atom a :: st.items }

/-- one parser step in `plain` mode. -/
def stepPlain (st : PSt) (c : Char) : Option PSt :=
  if c = '[' then some { st with mode := PMode.inCls [] ClsSub.boundary }
  else if c = '\\' then some { st with mode := PMode.esc }
  else if c = '(' then
    match st.ctx with
    | some _ => none
    | none => some { st with ctx := some [], mode := PMode.plain }
  else if c = ')' then
    match st.ctx with
    | some atoms => some { st with ctx := none, mode := PMode.afterGrp atoms.reverse }
    | none => none
  else if c = '$' then
    match st.ctx with
    | some _ => none
    | none => some { st with mode := PMode.done }
  else if isMeta c then none
  else some { (emitAtom st (RAtom.lit c)) with mode := PMode.plain }

/-- one parser step on one character. -/
def step (st : PSt) (c : Char) : Option PSt :=
  match st.mode with
  | PMode.done => none
  | PMode.esc =>
    if isMeta c then some { (emitAtom st (RAtom.lit c)) with mode := PMode.plain }
    else none
  | PMode.inCls rs sub =>
    match sub with
    | ClsSub.boundary =>
      if c = ']' then some { st with mode := PMode.afterCls rs.reverse }
      else some { st with mode := PMode.inCls rs (ClsSub.pending c) }
    | ClsSub.pending p =>
      if c = ']' then some { st with mode := PMode.afterCls ((p, p) :: rs).reverse }
      else if c = '-' then some { st with mode := PMode.inCls rs (ClsSub.dash p) }
      else some { st with mode := PMode.inCls ((p, p) :: rs) (ClsSub.pending c) }
    | ClsSub.dash p =>
      if c = ']' then some { st with mode := PMode.afterCls (( '-', '-') :: (p, p) :: rs).reverse }
      else some { st with mode := PMode.inCls ((p, c) :: rs) ClsSub.boundary }
  | PMode.afterCls rs =>
    if c = '*' then some { (emitAtom st (RAtom.clsStar rs)) with mode := PMode.plain }
    else stepPlain { (emitAtom st (RAtom.cls rs)) with mode := PMode.plain } c
  | PMode.afterGrp atoms =>
    if c = '?' then some { st with items := RItem.groupOpt atoms :: st.items, mode := PMode.plain }
    else if c = '*' then none
    else stepPlain { st with items := RItem.group atoms :: st.items, mode := PMode.plain } c
  | PMode.plain => stepPlain st c

/-- finish parsing: only legal right after the final `$` with no group
left open. -/
def closeParse (st : PSt) : Option RE :=
  match st.mode, st.ctx with
  | PMode.done, none => some st.items.reverse
  | _, _ => none

/-- model of `Regex::new` for the dialect produced by
`PathUtils::create_regex`: the expression must start with `^`, end with
`$`, and consist of classes, starred classes, escapes, plain-atom capture
groups and optional groups; anything else fails to build (`none`). -/
def regexNew (s : List Char) : Option RE :=
  match s with
  | '^' :: rest =>
    (rest.foldlM step { items := [], ctx := none, mode := PMode.plain }).bind closeParse
  | _ => none

/-- membership in a character class. -/
def inClass (rs : List (Char × Char)) (c : Char) : Bool :=
  rs.any (fun r => r.1 ≤ c && c ≤ r.2)

/-- the possible remainders after a greedy starred class consumes a run of
class characters, longest consumption first (the backtracking preference
order of a greedy quantifier). -/
def starSuffixes (rs : List (Char × Char)) (s : List Char) : List (List Char) :=
  let n := (s.takeWhile (inClass rs)).length
  (List.range (n + 1)).map (fun j => s.drop (n - j))

/-- the possible remainders after one atom matches a prefix of `s`, in
backtracking preference order. -/
def atomMatches : RAtom → List Char → List (List Char)
  | RAtom.lit _, [] => []
  | RAtom.lit c, c2 :: rest => if c2 = c then [rest] else []
  | RAtom.cls _, [] => []
  | RAtom.cls rs, c2 :: rest => if inClass rs c2 then [rest] else []
  | RAtom.clsStar rs, s => starSuffixes rs s

/-- the possible remainders after a sequence of atoms, in preference
order. -/
def atomsMatches : List RAtom → List Char → List (List Char)
  | [], s => [s]
  | a :: rest, s => (atomMatches a s).flatMap (atomsMatches rest)

/-- the prefix of `s` consumed when `r` remains. -/
def consumedBy (s r : List Char) : List Char := s.take (s.length - r.length)

/-- the possible (remainder, captured groups) pairs after one item, in
preference order; an optional group prefers matching over skipping. -/
def itemMatches : RItem → List Char → List (List Char × List (Option (List Char)))
  | RItem.atom a, s => (atomMatches a s).map (fun r => (r, []))
  | RItem.group g, s => (atomsMatches g s).map (fun r => (r, [some (consumedBy s r)]))
  | RItem.groupOpt g, s =>
    ((atomsMatches g s).map (fun r => (r, [some (consumedBy s r)]))) ++ [(s, [none])]

/-- the possible (remainder, captured groups) pairs after a sequence of
items, in backtracking preference order; captures are listed in group
order. -/
def itemsMatches : List RItem → List Char → List (List Char × List (Option (List Char)))
  | [], s => [(s, [])]
  | i :: rest, s =>
    (itemMatches i s).flatMap
      (fun pr => (itemsMatches rest pr.1).map (fun pr2 => (pr2.1, pr.2 ++ pr2.2)))

/-- model of `Regex::captures`: the capture groups (group 1 at index 0) of
the first full match in preference order, `none` when the regex does not
match; the regex is anchored so a full match consumes the whole string. -/
def reCaptures (re : RE) (s : List Char) : Option (List (Option (List Char))) :=
  (((itemsMatches re s).filter (fun pr => pr.1.isEmpty)).head?).map Prod.snd

/-- model of `Regex::is_match`. -/
def is_match (re : RE) (s : List Char) : Bool := (reCaptures re s).isSome

/-- `PathUtils::create_regex` (`src/router.rs` lines 62-84): build the
expression string and compile it; the `fail!` on a malformed expression is
modelled as `none`. -/
def create_regex (route_path : List Char) : Option RE :=
  regexNew (create_regex_string route_path)

/-! ## Route table and router (`src/router.rs`) -/

/-- the `Route` struct: pattern string, method, handler, variable-position
map (the source's `variables` field; `variables` is reserved in Lean) and
compiled matcher. -/
structure Route (H : Type) where
  path : List Char
  method : Method
  handler : H
  variable_infos : List (String × Nat)
  matcher : RE
deriving DecidableEq

/-- the `Router` struct: an append-only list of routes in registration
order. -/
structure Router (H : Type) where
  routes : List (Route H)
deriving DecidableEq

/-- `Router::new`. -/
def Router.new (H : Type) : Router H := ⟨[]⟩

/-- `Router::add_route` (`src/router.rs` lines 203-214): compile the
pattern, collect the variable positions, and append the route; a pattern
whose expression cannot be built makes registration fail (`fail!`,
modelled as `none`). -/
def Router.add_route {H : Type} (rt : Router H) (m : Method) (path : List Char)
    (handler : H) : Option (Router H) :=
  match create_regex path with
  | none => none
  | some matcher =>
    some ⟨rt.routes ++ [{ path := path, method := m, handler := handler,
                          variable_infos := get_variable_info path, matcher := matcher }]⟩

/-- a router built by a sequence of `add_route` calls starting from
`Router::new`; `none` as soon as any registration fails. -/
def buildRouter {H : Type} (regs : List (Method × List Char × H)) : Option (Router H) :=
  regs.foldlM (fun rt reg => rt.add_route reg.1 reg.2.1 reg.2.2) ⟨[]⟩

/-- the `RouteResult` struct: the matched route and the extracted
parameters. -/
structure RouteResult (H : Type) where
  route : Route H
  params : List (String × String)
deriving DecidableEq

/-- `Router::match_route` (`src/router.rs` lines 216-236): linear scan for
the first route whose method equals the request method and whose matcher
accepts the path; on a match, each variable at position `pos` is bound to
capture group `pos + 1` (index `pos` of the group list, the empty string
when the group did not participate), mirroring `captures.at(pos + 1)`. -/
def Router.match_route {H : Type} (rt : Router H) (m : Method) (path : List Char) :
    Option (RouteResult H) :=
  (rt.routes.find? (fun item => item.method == m && is_match item.matcher path)).bind
    (fun route =>
      match reCaptures route.matcher path with
      | some caps =>
        some { route := route,
               params := route.variable_infos.foldl
                 (fun mp nv =>
                   hmInsert mp nv.1 (String.mk ((caps.getD nv.2 none).getD []))) [] }
      | none => some { route := route, params := [] })

/-- the two-variant `Action` control-flow enum from `src/middleware.rs`:
`Continue` carries the updated fresh response, `Halt` a response ready for
finalization. -/
inductive Action (T U : Type) where
  | Continue : T → Action T U
  | Halt : U → Action T U

/-- result of one middleware invocation (`MiddlewareResult` in
`src/middleware.rs`): either an `Action` or an error. -/
def MwResult (ResF ResS Err : Type) := Except Err (Action ResF ResS)

/-- a middleware, embedded as a function: it receives the request (by
mutable reference in Rust, so it is threaded through) and the fresh
response, and produces the updated request together with its result. -/
def Mw (Req ResF ResS Err : Type) := Req → ResF → Req × MwResult ResF ResS Err

/-- an error handler (`ErrorHandler::handle_error` in `src/middleware.rs`):
receives the error and the request by mutable reference and produces an
`Action<(), ()>` deciding whether the error is handled. -/
def EH (Req Err : Type) := Err → Req → Err × Req × Action Unit Unit

/-- terminal outcome of one dispatch through `MiddlewareStack::invoke`:
a middleware halted and its response was finalized (`res.end()`), an error
handler halted and the error response was finalized (`err.end()`), the
error stayed unhandled and was logged, or every middleware continued and
the loop fell through its end. -/
inductive Outcome (ResS Err : Type) where
  | finalized : ResS → Outcome ResS Err
  | errorHalted : Err → Outcome ResS Err
  | unhandled : Err → Outcome ResS Err
  | fellThrough : Outcome ResS Err

/-- observable record of one dispatch: its outcome, the indices of the
middlewares that were invoked (in invocation order) and the indices of the
error handlers that were consulted (in consultation order). -/
structure DispatchTrace (ResS Err : Type) where
  outcome : Outcome ResS Err
  invoked : List Nat
  consulted : List Nat

/-- the inner error loop of `MiddlewareStack::invoke`
(`src/middleware.rs` lines 76-81 and the unhandled fall-through at 83-89):
the handlers are supplied already enumerated in the order they are
consulted (i.e. reverse registration order); the first handler returning
`Halt` finalizes the mutated error, and if none does the error is logged
unhandled. -/
def handleError {Req ResS Err : Type} :
    List (Nat × EH Req Err) → Err → Req → Outcome ResS Err × List Nat
  | [], err, _ => (Outcome.unhandled err, [])
  | (i, eh) :: rest, err, req =>
    match eh err req with
    | (err2, _, Action.Halt _) => (Outcome.errorHalted err2, [i])
    | (err2, req2, Action.Continue _) =>
      let r := handleError rest err2 req2
      (r.1, i :: r.2)

/-- the main loop of `MiddlewareStack::invoke` (`src/middleware.rs` lines
56-92), instrumented with the indices of the middlewares it runs: each
middleware is invoked in order; `Halt` finalizes and stops, `Continue`
threads the fresh response onward, an error is offered to the (already
reversed) error handlers. -/
def invokeFrom {Req ResF ResS Err : Type} :
    List (Nat × Mw Req ResF ResS Err) → List (Nat × EH Req Err) → Req → ResF →
    DispatchTrace ResS Err
  | [], _, _, _ => ⟨Outcome.fellThrough, [], []⟩
  | (i, h) :: rest, ehsRev, req, res =>
    match h req res with
    | (_, Except.ok (Action.Halt r)) => ⟨Outcome.finalized r, [i], []⟩
    | (req2, Except.ok (Action.Continue fresh)) =>
      let d := invokeFrom rest ehsRev req2 fresh
      ⟨d.outcome, i :: d.invoked, d.consulted⟩
    | (req2, Except.error e) =>
      let r := handleError ehsRev e req2
      ⟨r.1, [i], r.2⟩

/-- the `MiddlewareStack` struct from `src/middleware.rs`: regular
middlewares and error handlers, each in registration order. -/
structure MiddlewareStack (Req ResF ResS Err : Type) where
  handlers : List (Mw Req ResF ResS Err)
  error_handlers : List (EH Req Err)

/-- `MiddlewareStack::add_middleware`: push onto the handler list. -/
def MiddlewareStack.add_middleware {Req ResF ResS Err : Type}
    (st : MiddlewareStack Req ResF ResS Err) (h : Mw Req ResF ResS Err) :
    MiddlewareStack Req ResF ResS Err :=
  { st with handlers := st.handlers ++ [h] }

/-- `MiddlewareStack::add_error_handler`: push onto the error-handler list. -/
def MiddlewareStack.add_error_handler {Req ResF ResS Err : Type}
    (st : MiddlewareStack Req ResF ResS Err) (h : EH Req Err) :
    MiddlewareStack Req ResF ResS Err :=
  { st with error_handlers := st.error_handlers ++ [h] }

/-- `MiddlewareStack::invoke` at the stack level: the middlewares run in
registration order and the error handlers are traversed in reverse
registration order (`error_handlers.iter().rev()`). -/
def MiddlewareStack.invoke {Req ResF ResS Err : Type}
    (st : MiddlewareStack Req ResF ResS Err) (req : Req) (res : ResF) :
    DispatchTrace ResS Err :=
  invokeFrom st.handlers.enum st.error_handlers.enum.reverse req res

/-- the terminal `not_found_handler` defined inside `Nickel::listen`
(`src/nickel.rs` lines 213-215): it always fails with a not-found error. -/
def not_found_handler {Req ResF ResS : Type} : Mw Req ResF ResS NickelError :=
  fun req _ =>
    (req, Except.error ⟨NickelErrorKind.ErrorWithStatusCode Status.NotFound, "File Not Found"⟩)

/-- the middleware stack as assembled by `Nickel::listen`
(`src/nickel.rs` lines 212-218): the built-in terminal not-found
middleware is appended after all user middlewares. -/
def listenStack {Req ResF ResS : Type}
    (st : MiddlewareStack Req ResF ResS NickelError) :
    MiddlewareStack Req ResF ResS NickelError :=
  st.add_middleware not_found_handler

/-- test for a (non-optional) capture group item of a compiled regex. -/
def isGroupItem : RItem → Bool
  | RItem.group _ => true
  | _ => false

/-! ## The route-pattern token language

The following definitions state, not implement, the compiler: they name
the declarative pattern syntax (literal characters, `*`, `**`, `:name`)
that the external-interface section of the router's documentation
describes, so that the compiler's behaviour on it can be captured in one
correspondence theorem.  `routeChar` lists the characters a route pattern
may use; the underscore is left out only because the compiler's internal
double-wildcard marker is spelled with underscores. -/

/-- characters of the declarative route-pattern syntax. -/
def routeChar (c : Char) : Bool :=
  c = '/' || c = ':' || c = '*' || c = ',' || c = '-' ||
  ('a' ≤ c && c ≤ 'z') || ('A' ≤ c && c ≤ 'Z') || ('0' ≤ c && c ≤ '9')

/-- one token of a route pattern. -/
inductive PatTok where
  | lit : Char → PatTok
  | star : PatTok
  | dstar : PatTok
  | varTok : List Char → PatTok
deriving DecidableEq, Repr

/-- tokenization of a route pattern, mirroring the compiler's precedence:
`**` before `*`, and `:` taking the greedy run of name characters. -/
def patToks : List Char → List PatTok
  | [] => []
  | c :: rest =>
    if c = '*' ∧ rest.head? = some '*' then PatTok.dstar :: patToks rest.tail
    else if c = '*' then PatTok.star :: patToks rest
    else if c = ':' then
      PatTok.varTok (rest.takeWhile varClassChar) ::
        patToks (rest.dropWhile varClassChar)
    else PatTok.lit c :: patToks rest
termination_by s => s.length
decreasing_by
  · have : rest.tail.length ≤ rest.length := by
      cases rest <;> simp
    simp only [List.length_cons]
    omega
  · simp only [List.length_cons]; omega
  · have := List.Sublist.length_le (@List.dropWhile_sublist Char rest varClassChar)
    simp only [List.length_cons]
    omega
  · simp only [List.length_cons]; omega

/-- the parsed character class of `VAR_SEQ`. -/
def varRanges : List (Char × Char) :=
  [(',', ','), ('a', 'z'), ('A', 'Z'), ('0', '9'), ('_', '_'), ('-', '-')]

/-- the parsed character class of `VAR_SEQ_WITH_SLASH`. -/
def varSlashRanges : List (Char × Char) :=
  [(',', ','), ('/', '/'), ('a', 'z'), ('A', 'Z'), ('0', '9'), ('_', '_'), ('-', '-')]

/-- the parsed character class of the query-string group. -/
def queryRanges : List (Char × Char) :=
  [('a', 'z'), ('A', 'Z'), ('0', '9'), ('_', '_'), ('=', '='), ('&', '&'), ('-', '-')]

/-- the compiled regex item of one pattern token. -/
def tokItem : PatTok → RItem
  | PatTok.lit c => RItem.atom (RAtom.lit c)
  | PatTok.star => RItem.atom (RAtom.clsStar varRanges)
  | PatTok.dstar => RItem.atom (RAtom.clsStar varSlashRanges)
  | PatTok.varTok _ => RItem.group [RAtom.clsStar varRanges]

/-- the compiled optional query-string group (`REGEX_PARAM_SEQ`). -/
def queryItem : RItem := RItem.groupOpt [RAtom.lit '?', RAtom.clsStar queryRanges]

/-- a token's regex-source text after the three wildcard replacements
(before variables are substituted). -/
def tokMid : PatTok → List Char
  | PatTok.lit c => [c]
  | PatTok.star => VAR_SEQ
  | PatTok.dstar => VAR_SEQ_WITH_SLASH
  | PatTok.varTok n => ':' :: n

/-- a token's regex-source text after all four replacements. -/
def tokBody : PatTok → List Char
  | PatTok.lit c => [c]
  | PatTok.star => VAR_SEQ
  | PatTok.dstar => VAR_SEQ_WITH_SLASH
  | PatTok.varTok _ => VAR_SEQ_WITH_CAPTURE

/-- well-formedness of one token of a route-syntax pattern. -/
def TokOk : PatTok → Prop
  | PatTok.lit c => routeChar c = true ∧ c ≠ '*' ∧ c ≠ ':'
  | PatTok.varTok n => ∀ c ∈ n, varClassChar c = true ∧ routeChar c = true
  | _ => True

/-- the tokenizer's boundary invariant: a variable token is never
directly followed by a literal of a name character (the greedy name run
would have taken it). -/
def tokBoundary : PatTok → PatTok → Prop
  | PatTok.varTok _, PatTok.lit c => varClassChar c = false
  | _, _ => True

/-- the number of capture groups (capturing and optional) of a compiled
regex, counted in the order the matcher lists their captured texts. -/
def countGroups : List RItem → Nat
  | [] => 0
  | RItem.atom _ :: rest => countGroups rest
  | RItem.group _ :: rest => countGroups rest + 1
  | RItem.groupOpt _ :: rest => countGroups rest + 1

/-- the names of the variable tokens of a token list, in order of
appearance. -/
def varNames (toks : List PatTok) : List (List Char) :=
  toks.filterMap (fun t => match t with | PatTok.varTok n => some n | _ => none)

/-- an atom that can never consume a `?`. -/
def noQAtom : RAtom → Prop
  | RAtom.lit c => c ≠ '?'
  | RAtom.cls rs => inClass rs '?' = false
  | RAtom.clsStar rs => inClass rs '?' = false

/-- an item none of whose atoms can consume a `?`. -/
def noQItem : RItem → Prop
  | RItem.atom a => noQAtom a
  | RItem.group g => ∀ a ∈ g, noQAtom a
  | RItem.groupOpt g => ∀ a ∈ g, noQAtom a

/-! ## Concrete routers used to witness the router theorems -/

/-- registrations for the first-match witness: a broad double-wildcard
route registered before a narrower literal route on the same method. -/
def c1Regs : List (Method × List Char × Nat) :=
  [(Method.GET, "/a/**".data, 1), (Method.GET, "/a/b".data, 2)]

/-- the router built from `c1Regs` (registration succeeds, so `getD` just
unwraps it). -/
def c1Router : Router Nat := (buildRouter c1Regs).getD ⟨[]⟩

/-- the match result for GET `/a/b` on `c1Router`. -/
def c1Res : RouteResult Nat :=
  (c1Router.match_route Method.GET "/a/b".data).getD
    ⟨{ path := [], method := Method.GET, handler := 0, variable_infos := [], matcher := [] }, []⟩

/-! ## Concrete pipeline stacks used to witness the pipeline theorems -/

/-- first middleware of the witness stack for the halt claim: always
continues. -/
def c3H1 : Mw Nat Nat Nat Nat := fun q r => (q, Except.ok (Action.Continue r))

/-- second middleware of the witness stack: always halts with response 7. -/
def c3H2 : Mw Nat Nat Nat Nat := fun q _ => (q, Except.ok (Action.Halt 7))

/-- third middleware of the witness stack: would continue if ever reached. -/
def c3H3 : Mw Nat Nat Nat Nat := fun q r => (q, Except.ok (Action.Continue r))

/-- witness stack [H1 → Continue, H2 → Halt 7, H3]. -/
def c3Stack : MiddlewareStack Nat Nat Nat Nat :=
  { handlers := [c3H1, c3H2, c3H3], error_handlers := [] }

/-- middleware that always fails with error 5. -/
def c4H : Mw Nat Nat Nat Nat := fun q _ => (q, Except.error 5)

/-- error handler E1 (registered first): always halts, adding 100 to the
error. -/
def c4E1 : EH Nat Nat := fun e q => (e + 100, q, Action.Halt ())

/-- error handler E2 (registered second): always continues, adding 10 to
the error. -/
def c4E2 : EH Nat Nat := fun e q => (e + 10, q, Action.Continue ())

/-- witness stack with one failing middleware and error handlers
registered as [E1, E2]. -/
def c4Stack : MiddlewareStack Nat Nat Nat Nat :=
  { handlers := [c4H], error_handlers := [c4E1, c4E2] }

/-! ## Theorems -/

theorem snd_mem_of_mem_enumFrom {α : Type} :
    ∀ (l : List α) (n : Nat) (p : Nat × α), p ∈ l.enumFrom n → p.2 ∈ l := by
  intro l
  induction l with
  | nil => intro n p h; simp [List.enumFrom] at h
  | cons a rest ih =>
    intro n p h
    rw [List.enumFrom_cons] at h
    rcases List.mem_cons.mp h with h1 | h2
    · subst h1; exact List.mem_cons_self _ _
    · exact List.mem_cons_of_mem _ (ih (n + 1) p h2)

theorem invokeFrom_halt_at {Req ResF ResS Err : Type}
    (ehsRev : List (Nat × EH Req Err)) (R : ResS) :
    ∀ (pre : List (Nat × Mw Req ResF ResS Err)) (iK : Nat) (hK : Mw Req ResF ResS Err)
      (post : List (Nat × Mw Req ResF ResS Err)) (req : Req) (res : ResF),
      (∀ p ∈ pre, ∀ q r, ∃ q2 r2, p.2 q r = (q2, Except.ok (Action.Continue r2))) →
      (∀ q r, ∃ q2, hK q r = (q2, Except.ok (Action.Halt R))) →
      invokeFrom (pre ++ (iK, hK) :: post) ehsRev req res =
        ⟨Outcome.finalized R, pre.map Prod.fst ++ [iK], []⟩ := by
  intro pre
  induction pre with
  | nil =>
    intro iK hK post req res _ hhalt
    obtain ⟨q2, heq⟩ := hhalt req res
    simp [invokeFrom, heq]
  | cons p rest ih =>
    intro iK hK post req res hpre hhalt
    obtain ⟨q2, r2, heq⟩ := hpre p (List.mem_cons_self _ _) req res
    have := ih iK hK post q2 r2
      (fun p2 hp2 => hpre p2 (List.mem_cons_of_mem _ hp2)) hhalt
    simp [invokeFrom, heq, this]

theorem invokeFrom_error_at {Req ResF ResS Err : Type}
    (ehsRev : List (Nat × EH Req Err)) (e0 : Err) :
    ∀ (pre : List (Nat × Mw Req ResF ResS Err)) (iK : Nat) (hK : Mw Req ResF ResS Err)
      (post : List (Nat × Mw Req ResF ResS Err)) (req : Req) (res : ResF),
      (∀ p ∈ pre, ∀ q r, ∃ q2 r2, p.2 q r = (q2, Except.ok (Action.Continue r2))) →
      (∀ q r, ∃ q2, hK q r = (q2, Except.error e0)) →
      ∃ qe, invokeFrom (pre ++ (iK, hK) :: post) ehsRev req res =
        ⟨(@handleError Req ResS Err ehsRev e0 qe).1, pre.map Prod.fst ++ [iK],
         (@handleError Req ResS Err ehsRev e0 qe).2⟩ := by
  intro pre
  induction pre with
  | nil =>
    intro iK hK post req res _ herr
    obtain ⟨q2, heq⟩ := herr req res
    refine ⟨q2, ?_⟩
    simp [invokeFrom, heq]
  | cons p rest ih =>
    intro iK hK post req res hpre herr
    obtain ⟨q2, r2, heq⟩ := hpre p (List.mem_cons_self _ _) req res
    obtain ⟨qe, hrec⟩ := ih iK hK post q2 r2
      (fun p2 hp2 => hpre p2 (List.mem_cons_of_mem _ hp2)) herr
    refine ⟨qe, ?_⟩
    simp [invokeFrom, heq, hrec]

theorem handleError_halt_at {Req ResS Err : Type} :
    ∀ (pre : List (Nat × EH Req Err)) (iT : Nat) (ehT : EH Req Err)
      (post : List (Nat × EH Req Err)) (e : Err) (q : Req),
      (∀ p ∈ pre, ∀ e2 q2, ∃ e3 q3, p.2 e2 q2 = (e3, q3, Action.Continue ())) →
      (∀ e2 q2, ∃ e3 q3, ehT e2 q2 = (e3, q3, Action.Halt ())) →
      ∃ em qm, @handleError Req ResS Err (pre ++ (iT, ehT) :: post) e q =
        (Outcome.errorHalted (ehT em qm).1, pre.map Prod.fst ++ [iT]) := by
  intro pre
  induction pre with
  | nil =>
    intro iT ehT post e q _ hT
    obtain ⟨e3, q3, heq⟩ := hT e q
    refine ⟨e, q, ?_⟩
    simp [handleError, heq]
  | cons p rest ih =>
    intro iT ehT post e q hpre hT
    obtain ⟨e3, q3, heq⟩ := hpre p (List.mem_cons_self _ _) e q
    obtain ⟨em, qm, hrec⟩ := ih iT ehT post e3 q3
      (fun p2 hp2 => hpre p2 (List.mem_cons_of_mem _ hp2)) hT
    refine ⟨em, qm, ?_⟩
    simp [handleError, heq, hrec]

/-- C3: during dispatch the middlewares run in registration order, each at
most once; if every middleware before `hK` continues and `hK` halts with
`R`, the pipeline finalizes with `R`, the invoked indices are exactly
`0, …, pre.length` in order (so no middleware after the halting one is
ever invoked) and no error handler is consulted. -/
theorem c3_halt_short_circuits {Req ResF ResS Err : Type}
    (st : MiddlewareStack Req ResF ResS Err) (req : Req) (res : ResF)
    (pre post : List (Mw Req ResF ResS Err)) (hK : Mw Req ResF ResS Err) (R : ResS)
    (hhs : st.handlers = pre ++ hK :: post)
    (hpre : ∀ h ∈ pre, ∀ q r, ∃ q2 r2, h q r = (q2, Except.ok (Action.Continue r2)))
    (hhalt : ∀ q r, ∃ q2, hK q r = (q2, Except.ok (Action.Halt R))) :
    st.invoke req res = ⟨Outcome.finalized R, List.range (pre.length + 1), []⟩ := by
  have henum : st.handlers.enum =
      pre.enum ++ (pre.length, hK) :: post.enumFrom (pre.length + 1) := by
    rw [hhs, List.enum_append]
    rfl
  have hpre' : ∀ p ∈ pre.enum, ∀ q r, ∃ q2 r2,
      p.2 q r = (q2, Except.ok (Action.Continue r2)) :=
    fun p hp => hpre p.2 (snd_mem_of_mem_enumFrom pre 0 p hp)
  have := invokeFrom_halt_at (st.error_handlers.enum.reverse) R pre.enum pre.length hK
    (post.enumFrom (pre.length + 1)) req res hpre' hhalt
  rw [MiddlewareStack.invoke, henum, this, List.enum_map_fst, ← List.range_succ]

/-- closed witness for the halt claim: on the stack
[H1 → Continue, H2 → Halt 7, H3], dispatch finalizes with 7, invokes
exactly middlewares 0 and 1 in that order, and consults no error
handler. -/
theorem c3_halt_short_circuits_witness :
    c3Stack.invoke 0 0 = ⟨Outcome.finalized 7, [0, 1], []⟩ := by
  have h := c3_halt_short_circuits c3Stack 0 0 [c3H1] [c3H3] c3H2 7 rfl
    (by
      intro h hmem q r
      simp only [List.mem_singleton] at hmem
      subst hmem
      exact ⟨q, r, rfl⟩)
    (fun q r => ⟨q, rfl⟩)
  simpa using h

/-- C4: when the middleware `hK` fails with `e0` (after `preM` all
continued), the error handlers are consulted in reverse registration
order: every handler registered after the halting handler `ehT` is
consulted first (hypothesis: they all continue), then `ehT` halts; the
response is finalized from `ehT`'s handling of the error and no
earlier-registered handler is consulted; the consulted indices are exactly
the reversed suffix indices followed by `ehT`'s own index. -/
theorem c4_error_handlers_reverse {Req ResF ResS Err : Type}
    (st : MiddlewareStack Req ResF ResS Err) (req : Req) (res : ResF)
    (preM postM : List (Mw Req ResF ResS Err)) (hK : Mw Req ResF ResS Err) (e0 : Err)
    (preE postE : List (EH Req Err)) (ehT : EH Req Err)
    (hhs : st.handlers = preM ++ hK :: postM)
    (hpreM : ∀ h ∈ preM, ∀ q r, ∃ q2 r2, h q r = (q2, Except.ok (Action.Continue r2)))
    (herr : ∀ q r, ∃ q2, hK q r = (q2, Except.error e0))
    (hehs : st.error_handlers = preE ++ ehT :: postE)
    (hpost : ∀ eh ∈ postE, ∀ e q, ∃ e2 q2, eh e q = (e2, q2, Action.Continue ()))
    (hT : ∀ e q, ∃ e2 q2, ehT e q = (e2, q2, Action.Halt ())) :
    ∃ em qm, st.invoke req res =
      ⟨Outcome.errorHalted (ehT em qm).1,
       List.range (preM.length + 1),
       (List.range' (preE.length + 1) postE.length).reverse ++ [preE.length]⟩ := by
  have henum : st.handlers.enum =
      preM.enum ++ (preM.length, hK) :: postM.enumFrom (preM.length + 1) := by
    rw [hhs, List.enum_append]
    rfl
  have hrev : st.error_handlers.enum.reverse =
      (postE.enumFrom (preE.length + 1)).reverse ++
        (preE.length, ehT) :: preE.enum.reverse := by
    rw [hehs, List.enum_append, List.enumFrom_cons, List.reverse_append,
      List.reverse_cons, List.append_assoc]
    rfl
  have hpreM' : ∀ p ∈ preM.enum, ∀ q r, ∃ q2 r2,
      p.2 q r = (q2, Except.ok (Action.Continue r2)) :=
    fun p hp => hpreM p.2 (snd_mem_of_mem_enumFrom preM 0 p hp)
  have hpost' : ∀ p ∈ (postE.enumFrom (preE.length + 1)).reverse, ∀ e q, ∃ e2 q2,
      p.2 e q = (e2, q2, Action.Continue ()) :=
    fun p hp =>
      hpost p.2 (snd_mem_of_mem_enumFrom postE (preE.length + 1) p
        (List.mem_reverse.mp hp))
  obtain ⟨qe, hinv⟩ :=
    invokeFrom_error_at (st.error_handlers.enum.reverse) e0 preM.enum preM.length hK
      (postM.enumFrom (preM.length + 1)) req res hpreM' herr
  obtain ⟨em, qm, hhe⟩ :=
    @handleError_halt_at Req ResS Err ((postE.enumFrom (preE.length + 1)).reverse)
      preE.length ehT preE.enum.reverse e0 qe hpost' hT
  rw [hrev] at hinv
  rw [hhe] at hinv
  refine ⟨em, qm, ?_⟩
  rw [MiddlewareStack.invoke, henum, hrev, hinv]
  simp only [List.enum_map_fst, ← List.range_succ, List.map_append, List.map_reverse,
    List.enumFrom_map_fst]

/-- closed witness for the error-handler claim: on the stack with one
failing middleware and error handlers registered as [E1, E2], dispatch
invokes only middleware 0 and consults handler 1 (E2) before handler 0
(E1), stopping at E1. -/
theorem c4_error_handlers_reverse_witness :
    (c4Stack.invoke 0 0).invoked = [0] ∧ (c4Stack.invoke 0 0).consulted = [1, 0] := by
  obtain ⟨em, qm, heq⟩ := c4_error_handlers_reverse c4Stack 0 0 [] [] c4H 5 [] [c4E2] c4E1
    rfl
    (by intro h hmem; exact absurd hmem (List.not_mem_nil h))
    (fun q r => ⟨q, rfl⟩)
    rfl
    (by
      intro eh hmem e q
      simp only [List.mem_singleton] at hmem
      subst hmem
      exact ⟨e + 10, q, rfl⟩)
    (fun e q => ⟨e + 100, q, rfl⟩)
  rw [heq]
  exact ⟨rfl, rfl⟩

theorem handleError_outcome {Req ResS Err : Type} :
    ∀ (l : List (Nat × EH Req Err)) (e : Err) (q : Req),
      (∃ e2, (@handleError Req ResS Err l e q).1 = Outcome.errorHalted e2) ∨
      (∃ e2, (@handleError Req ResS Err l e q).1 = Outcome.unhandled e2) := by
  intro l
  induction l with
  | nil => intro e q; right; exact ⟨e, rfl⟩
  | cons p rest ih =>
    intro e q
    rcases p with ⟨i, eh⟩
    rcases h : eh e q with ⟨e2, q2, act⟩
    cases act with
    | Halt u => left; exact ⟨e2, by simp [handleError, h]⟩
    | Continue u =>
      rcases ih e2 q2 with ⟨e3, h3⟩ | ⟨e3, h3⟩
      · left; exact ⟨e3, by simp [handleError, h, h3]⟩
      · right; exact ⟨e3, by simp [handleError, h, h3]⟩

theorem invokeFrom_terminal_resolves {Req ResF ResS : Type}
    (ehsRev : List (Nat × EH Req NickelError)) :
    ∀ (hs : List (Nat × Mw Req ResF ResS NickelError)) (i : Nat) (req : Req) (res : ResF),
      (∃ r, (invokeFrom (hs ++ [(i, not_found_handler)]) ehsRev req res).outcome =
        Outcome.finalized r) ∨
      (∃ e, (invokeFrom (hs ++ [(i, not_found_handler)]) ehsRev req res).outcome =
        Outcome.errorHalted e) ∨
      (∃ e, (invokeFrom (hs ++ [(i, not_found_handler)]) ehsRev req res).outcome =
        Outcome.unhandled e) := by
  intro hs
  induction hs with
  | nil =>
    intro i req res
    rcases @handleError_outcome Req ResS NickelError ehsRev
        ⟨NickelErrorKind.ErrorWithStatusCode Status.NotFound, "File Not Found"⟩ req with
      ⟨e2, h⟩ | ⟨e2, h⟩
    · right; left; exact ⟨e2, by simpa [invokeFrom, not_found_handler] using h⟩
    · right; right; exact ⟨e2, by simpa [invokeFrom, not_found_handler] using h⟩
  | cons p rest ih =>
    intro i req res
    rcases p with ⟨j, h⟩
    rcases hh : h req res with ⟨q2, mr⟩
    rcases mr with e | a
    case error =>
      rcases @handleError_outcome Req ResS NickelError ehsRev e q2 with ⟨e2, hr⟩ | ⟨e2, hr⟩
      · right; left; exact ⟨e2, by simpa [invokeFrom, hh] using hr⟩
      · right; right; exact ⟨e2, by simpa [invokeFrom, hh] using hr⟩
    case ok =>
      cases a with
      | Halt r => left; exact ⟨r, by simp [invokeFrom, hh]⟩
      | Continue fresh =>
        rcases ih i q2 fresh with ⟨r, hr⟩ | ⟨e2, hr⟩ | ⟨e2, hr⟩
        · left; exact ⟨r, by simp only [List.cons_append, invokeFrom, hh]; exact hr⟩
        · right; left; exact ⟨e2, by simp only [List.cons_append, invokeFrom, hh]; exact hr⟩
        · right; right; exact ⟨e2, by simp only [List.cons_append, invokeFrom, hh]; exact hr⟩

/-- C5: in the assembled server (`listen` appends the built-in terminal
not-found middleware after all user middlewares) every dispatch reaches
exactly one terminal outcome — a finalized response (a middleware halted,
or an error handler halted on a raised error) or an unhandled logged
error; the all-middlewares-continue fall-through cannot occur. -/
theorem c5_listen_exactly_one_outcome {Req ResF ResS : Type}
    (st : MiddlewareStack Req ResF ResS NickelError) (req : Req) (res : ResF) :
    (∃ r, ((listenStack st).invoke req res).outcome = Outcome.finalized r) ∨
    (∃ e, ((listenStack st).invoke req res).outcome = Outcome.errorHalted e) ∨
    (∃ e, ((listenStack st).invoke req res).outcome = Outcome.unhandled e) := by
  have henum : (listenStack st).handlers.enum =
      st.handlers.enum ++ [(st.handlers.length, not_found_handler)] := by
    rw [show (listenStack st).handlers = st.handlers ++ [not_found_handler] from rfl,
      List.enum_append]
    rfl
  rw [MiddlewareStack.invoke, henum]
  exact invokeFrom_terminal_resolves _ st.handlers.enum st.handlers.length req res

/-- C1: for a router built by a sequence of `add_route` calls,
`match_route` returns the earliest-registered route (every
earlier-registered route fails the method-and-matcher test) whose method
equals the request method and whose compiled matcher accepts the path, and
returns `none` exactly when no registered route passes that test; in
particular a route registered after a broader route that matches the same
method and paths is never returned. -/
theorem c1_first_match_wins {H : Type} (regs : List (Method × List Char × H))
    (rt : Router H) (m : Method) (p : List Char)
    (hrt : buildRouter regs = some rt) :
    (∀ res, rt.match_route m p = some res →
      (res.route.method = m ∧ is_match res.route.matcher p = true) ∧
      ∃ pre post, rt.routes = pre ++ res.route :: post ∧
        ∀ r0 ∈ pre, ¬(r0.method = m ∧ is_match r0.matcher p = true)) ∧
    (rt.match_route m p = none ↔
      ∀ r0 ∈ rt.routes, ¬(r0.method = m ∧ is_match r0.matcher p = true)) := by
  clear hrt
  constructor
  · intro res hres
    rw [Router.match_route] at hres
    cases hfind : rt.routes.find?
        (fun item => item.method == m && is_match item.matcher p) with
    | none => rw [hfind] at hres; exact absurd hres (by simp)
    | some route =>
      rw [hfind] at hres
      simp only [Option.bind] at hres
      have hr : res.route = route := by
        cases hcaps : reCaptures route.matcher p with
        | some caps => rw [hcaps] at hres; cases hres; rfl
        | none => rw [hcaps] at hres; cases hres; rfl
      obtain ⟨hpred, pre, post, hsplit, hprefail⟩ := List.find?_eq_some.mp hfind
      rw [Bool.and_eq_true, beq_iff_eq] at hpred
      refine ⟨by rw [hr]; exact hpred, pre, post, by rw [hr]; exact hsplit, ?_⟩
      intro r0 hmem hcontra
      have := hprefail r0 hmem
      rw [hcontra.1, hcontra.2] at this
      simp at this
  · constructor
    · intro hnone r0 hmem hcontra
      rw [Router.match_route] at hnone
      cases hfind : rt.routes.find?
          (fun item => item.method == m && is_match item.matcher p) with
      | some route =>
        rw [hfind] at hnone
        simp only [Option.bind] at hnone
        cases hcaps : reCaptures route.matcher p with
        | some caps => rw [hcaps] at hnone; cases hnone
        | none => rw [hcaps] at hnone; cases hnone
      | none =>
        have := List.find?_eq_none.mp hfind r0 hmem
        rw [hcontra.1, hcontra.2] at this
        simp at this
    · intro hall
      rw [Router.match_route]
      have hfind : rt.routes.find?
          (fun item => item.method == m && is_match item.matcher p) = none := by
        refine List.find?_eq_none.mpr ?_
        intro r0 hmem
        intro hcontra
        rw [Bool.and_eq_true, beq_iff_eq] at hcontra
        exact hall r0 hmem hcontra
      rw [hfind]
      rfl

/-- C8: registering `/foo/:uid/bar/:groupid` and matching
`/foo/4711/bar/5490,1234` succeeds and yields exactly the parameter
mapping uid ↦ "4711", groupid ↦ "5490,1234"; commas are legal inside
captured variable values. -/
theorem c8_round_trip_commas :
    ((buildRouter [(Method.GET, "/foo/:uid/bar/:groupid".data, 0)]).bind
      (fun rt => rt.match_route Method.GET "/foo/4711/bar/5490,1234".data)).map
      (fun res => res.params) =
    some [("uid", "4711"), ("groupid", "5490,1234")] := by decide

/-- counterexample to C2 as stated: the matcher compiled from `/a/**/route`
rejects `/a/route`, because the pattern's literal slashes around `**`
survive compilation, so `**` cannot stand for zero segments there. -/
theorem c2_double_wildcard_counterexample :
    (create_regex "/a/**/route".data).map
      (fun re => is_match re "/a/route".data) = some false := by decide

/-- C2 (amended): `*` matches exactly one (possibly empty) path segment
and never crosses `/`; `**` matches any run of path characters including
`/`, i.e. one or more segments or one empty segment, but not zero
segments — the slashes written around it in the pattern must still be
present in the path: `/a/*/route` accepts `/a/x/route` and `/a//route`
but rejects `/a/x/y/route` and `/a/route`; `/a/**/route` accepts
`/a/x/route`, `/a/x/y/route` and `/a//route` but rejects `/a/route`. -/
theorem c2_wildcards_amended :
    ((create_regex "/a/*/route".data).map (fun re =>
      (is_match re "/a/x/route".data, is_match re "/a//route".data,
       is_match re "/a/x/y/route".data, is_match re "/a/route".data)) =
      some (true, true, false, false)) ∧
    ((create_regex "/a/**/route".data).map (fun re =>
      (is_match re "/a/x/route".data, is_match re "/a/x/y/route".data,
       is_match re "/a//route".data, is_match re "/a/route".data)) =
      some (true, true, true, false)) := by decide

theorem hmInsert_lookup {α : Type} (k a : String) (v : α) :
    ∀ m : List (String × α), List.lookup k (hmInsert m a v) =
      if a = k then some v else List.lookup k m := by
  intro m
  induction m with
  | nil =>
    by_cases h : a = k
    · subst h; simp [hmInsert, List.lookup]
    · simp [hmInsert, List.lookup, h, beq_false_of_ne (Ne.symm h)]
  | cons pr rest ih =>
    rcases pr with ⟨k0, v0⟩
    simp only [hmInsert]
    by_cases h0 : k0 = a
    · rw [if_pos h0]
      subst h0
      by_cases h : k0 = k
      · subst h; simp [List.lookup]
      · rw [if_neg (fun hh : k0 = k => h hh)]
        simp [List.lookup, beq_false_of_ne (fun hh : k = k0 => h hh.symm)]
    · rw [if_neg h0]
      by_cases hk : k = k0
      · subst hk
        have hak : ¬ a = k := fun hh => h0 (hh.symm)
        simp [List.lookup, hak]
      · simp [List.lookup, beq_false_of_ne hk, ih]

theorem foldl_hmInsert_lookup {α : Type} (k : String) :
    ∀ (pairs : List (String × α)) (m : List (String × α)),
      List.lookup k (pairs.foldl (fun acc nv => hmInsert acc nv.1 nv.2) m) =
        (match pairs.reverse.find? (fun x => x.1 == k) with
         | some pr => some pr.2
         | none => List.lookup k m) := by
  intro pairs
  induction pairs with
  | nil => intro m; simp
  | cons p rest ih =>
    intro m
    rw [List.foldl_cons, ih, List.reverse_cons, List.find?_append]
    cases hfind : rest.reverse.find? (fun x => x.1 == k) with
    | some pr => simp [Option.orElse]
    | none =>
      simp only [Option.none_orElse, Option.orElse]
      by_cases h : p.1 = k
      · simp [List.find?, h, hmInsert_lookup]
      · simp [List.find?, beq_false_of_ne h, hmInsert_lookup, h]

/-- C10: when the same variable name occurs more than once in a pattern,
the variable mapping keeps exactly one entry per name, bound to the index
of its last occurrence (the general lookup law below states that a lookup
returns the position of the last occurrence of the name among the
collected occurrences), while the compiled matcher still contains one
capture group per occurrence; concretely, `/:a/x/:a` yields the mapping
[(a, 1)], a matcher with two capture groups, and matching `/u/x/v` binds
`a` to `"v"`, the text of the last occurrence. -/
theorem c10_duplicate_variable_last_occurrence :
    (∀ (p : List Char) (k : String),
      List.lookup k (get_variable_info p) =
        (((collectVarNames p).enum.map (fun iv => (String.mk iv.2, iv.1))).reverse.find?
          (fun x => x.1 == k)).map Prod.snd) ∧
    get_variable_info "/:a/x/:a".data = [("a", 1)] ∧
    (create_regex "/:a/x/:a".data).map (fun re => (re.filter isGroupItem).length) =
      some 2 ∧
    ((buildRouter [(Method.GET, "/:a/x/:a".data, 0)]).bind
      (fun rt => rt.match_route Method.GET "/u/x/v".data)).map (fun res => res.params) =
      some [("a", "v")] := by
  refine ⟨?_, by decide, by decide, by decide⟩
  intro p k
  rw [get_variable_info, foldl_hmInsert_lookup]
  cases hfind : ((collectVarNames p).enum.map
      (fun iv => (String.mk iv.2, iv.1))).reverse.find? (fun x => x.1 == k) with
  | some pr => simp
  | none => simp

/-- closed witness for the first-match claim: with a broad `/a/**` route
registered before a narrow `/a/b` route, GET `/a/b` is answered by the
earlier broad route — the narrow one is unreachable. -/
theorem c1_first_match_wins_witness :
    (c1Res.route.method = Method.GET ∧
      is_match c1Res.route.matcher "/a/b".data = true) ∧
    ∃ pre post, c1Router.routes = pre ++ c1Res.route :: post ∧
      ∀ r0 ∈ pre, ¬(r0.method = Method.GET ∧
        is_match r0.matcher "/a/b".data = true) :=
  (c1_first_match_wins c1Regs c1Router Method.GET "/a/b".data (by rfl)).1 c1Res (by rfl)

/-- C9: a pattern whose generated matching expression cannot be built
fails at route-registration time — `add_route` fails (the source
`fail!`s) and stores nothing — and in any successfully built router every
stored route carries the successfully compiled matcher of its own
pattern, so per-request matching (which only consults stored matchers)
never encounters a compilation failure. -/
theorem c9_compile_failure_fail_fast {H : Type} :
    (∀ (rt : Router H) (m : Method) (path : List Char) (h : H),
      create_regex path = none → rt.add_route m path h = none) ∧
    (∀ (regs : List (Method × List Char × H)) (rt : Router H),
      buildRouter regs = some rt →
      ∀ route ∈ rt.routes, create_regex route.path = some route.matcher) := by
  constructor
  · intro rt m path h hfail
    rw [Router.add_route, hfail]
  · have aux : ∀ (regs : List (Method × List Char × H)) (rt0 rt : Router H),
        (regs.foldlM (fun racc reg => racc.add_route reg.1 reg.2.1 reg.2.2) rt0 =
          some rt) →
        (∀ route ∈ rt0.routes, create_regex route.path = some route.matcher) →
        ∀ route ∈ rt.routes, create_regex route.path = some route.matcher := by
      intro regs
      induction regs with
      | nil =>
        intro rt0 rt hfold h0
        simp only [List.foldlM] at hfold
        cases hfold
        exact h0
      | cons reg rest ih =>
        intro rt0 rt hfold h0
        rw [List.foldlM_cons] at hfold
        cases hadd : rt0.add_route reg.1 reg.2.1 reg.2.2 with
        | none => rw [hadd] at hfold; cases hfold
        | some rt1 =>
          rw [hadd] at hfold
          refine ih rt1 rt hfold ?_
          rw [Router.add_route] at hadd
          cases hcomp : create_regex reg.2.1 with
          | none => rw [hcomp] at hadd; cases hadd
          | some re =>
            rw [hcomp] at hadd
            cases hadd
            intro route hmem
            rcases List.mem_append.mp hmem with hmem0 | hmem1
            · exact h0 route hmem0
            · rw [List.mem_singleton] at hmem1
              subst hmem1
              exact hcomp
    intro regs rt hb
    exact aux regs ⟨[]⟩ rt hb (by intro route hmem; simp at hmem)


theorem replaceDoubleWild_cons_ne (c : Char) (s : List Char) (hc : c ≠ '*') :
    replaceDoubleWild (c :: s) = c :: replaceDoubleWild s := by
  cases s with
  | nil => rfl
  | cons d s' =>
    rw [replaceDoubleWild]
    rw [if_neg (fun h => hc h.1)]

theorem replaceDoubleWild_append (n m : List Char) (hn : ∀ c ∈ n, c ≠ '*') :
    replaceDoubleWild (n ++ m) = n ++ replaceDoubleWild m := by
  induction n with
  | nil => rfl
  | cons c n' ih =>
    rw [List.cons_append,
      replaceDoubleWild_cons_ne c (n' ++ m) (hn c (List.mem_cons_self _ _)),
      ih (fun c2 h2 => hn c2 (List.mem_cons_of_mem _ h2)), List.cons_append]

theorem replaceSingleWild_cons_ne (c : Char) (s : List Char) (hc : c ≠ '*') :
    replaceSingleWild (c :: s) = c :: replaceSingleWild s := by
  rw [replaceSingleWild, if_neg hc]

theorem replaceSingleWild_append (n m : List Char) (hn : ∀ c ∈ n, c ≠ '*') :
    replaceSingleWild (n ++ m) = n ++ replaceSingleWild m := by
  induction n with
  | nil => rfl
  | cons c n' ih =>
    rw [List.cons_append,
      replaceSingleWild_cons_ne c (n' ++ m) (hn c (List.mem_cons_self _ _)),
      ih (fun c2 h2 => hn c2 (List.mem_cons_of_mem _ h2)), List.cons_append]

theorem replaceMarkF_fuel : ∀ (f g : Nat) (s : List Char), s.length ≤ f → s.length ≤ g →
    replaceMarkF f s = replaceMarkF g s := by
  intro f
  induction f with
  | zero =>
    intro g s hf _
    have : s = [] := List.length_eq_zero.mp (Nat.le_zero.mp hf)
    subst this
    cases g <;> rfl
  | succ f' ih =>
    intro g s hf hg
    cases s with
    | nil => cases g <;> rfl
    | cons c rest =>
      cases g with
      | zero => simp at hg
      | succ g' =>
        rw [replaceMarkF, replaceMarkF]
        by_cases hpre : DOUBLE_MARK.isPrefixOf (c :: rest) = true
        · rw [if_pos hpre, if_pos hpre]
          have hM : DOUBLE_MARK.length = 21 := rfl
          have hdl : ((c :: rest).drop DOUBLE_MARK.length).length ≤ f' := by
            simp only [List.length_drop, List.length_cons, hM]
            simp only [List.length_cons] at hf
            omega
          have hdg : ((c :: rest).drop DOUBLE_MARK.length).length ≤ g' := by
            simp only [List.length_drop, List.length_cons, hM]
            simp only [List.length_cons] at hg
            omega
          rw [ih g' _ hdl hdg]
        · rw [if_neg hpre, if_neg hpre]
          simp only [List.length_cons] at hf hg
          rw [ih g' rest (by omega) (by omega)]

theorem replaceMark_step_ne (c : Char) (s : List Char)
    (hpre : DOUBLE_MARK.isPrefixOf (c :: s) = false) :
    replaceMark (c :: s) = c :: replaceMark s := by
  rw [replaceMark, replaceMark]
  rw [show (c :: s).length = s.length + 1 from rfl, replaceMarkF, if_neg (by rw [hpre]; exact Bool.false_ne_true)]

theorem replaceMark_cons_ne (c : Char) (s : List Char) (hc : c ≠ '_') :
    replaceMark (c :: s) = c :: replaceMark s := by
  refine replaceMark_step_ne c s ?_
  show ((['_'] ++ DOUBLE_MARK.tail).isPrefixOf (c :: s)) = false
  simp only [List.cons_append, List.nil_append, List.isPrefixOf]
  rw [beq_false_of_ne (fun h : '_' = c => hc h.symm)]
  rfl

theorem isPrefixOf_append_self (l t : List Char) : l.isPrefixOf (l ++ t) = true := by
  induction l with
  | nil => simp [List.isPrefixOf]
  | cons c l' ih => simp [List.isPrefixOf, ih]

theorem replaceMark_mark (s : List Char) :
    replaceMark (DOUBLE_MARK ++ s) = VAR_SEQ_WITH_SLASH ++ replaceMark s := by
  rw [replaceMark, replaceMark]
  have hlen : (DOUBLE_MARK ++ s).length = (DOUBLE_MARK.length + s.length - 1) + 1 := by
    have hM : DOUBLE_MARK.length = 21 := rfl
    simp only [List.length_append, hM]
    omega
  rw [hlen]
  have : DOUBLE_MARK ++ s = '_' :: (DOUBLE_MARK.tail ++ s) := rfl
  rw [this, replaceMarkF]
  rw [← this, if_pos (isPrefixOf_append_self DOUBLE_MARK s), List.drop_left]
  have h20 : DOUBLE_MARK.length + s.length - 1 = s.length + 20 := by
    have hM : DOUBLE_MARK.length = 21 := rfl
    omega
  rw [h20, replaceMarkF_fuel (s.length + 20) s.length s (by omega) (le_refl _)]

theorem replaceMark_append (n m : List Char) (hn : ∀ c ∈ n, c ≠ '_') :
    replaceMark (n ++ m) = n ++ replaceMark m := by
  induction n with
  | nil => rfl
  | cons c n' ih =>
    rw [List.cons_append,
      replaceMark_cons_ne c (n' ++ m) (hn c (List.mem_cons_self _ _)),
      ih (fun c2 h2 => hn c2 (List.mem_cons_of_mem _ h2)), List.cons_append]


theorem varClassChar_ne_star (c : Char) (h : varClassChar c = true) : c ≠ '*' := by
  intro heq
  subst heq
  exact absurd h (by decide)

theorem routeChar_ne_underscore (c : Char) (h : routeChar c = true) : c ≠ '_' := by
  intro heq
  subst heq
  exact absurd h (by decide)

theorem replaceMark_var_seq (x : List Char) :
    replaceMark (VAR_SEQ ++ x) = VAR_SEQ ++ replaceMark x := by
  have h1 : VAR_SEQ ++ x =
      ['[', ',', 'a', '-', 'z', 'A', '-', 'Z', '0', '-', '9'] ++
        ('_' :: (['-', ']', '*'] ++ x)) := by simp [VAR_SEQ]
  rw [h1,
    replaceMark_append _ _ (by decide),
    replaceMark_step_ne _ _ (by simp [DOUBLE_MARK, List.isPrefixOf]),
    replaceMark_append _ _ (by decide)]
  simp [VAR_SEQ]

theorem pipeline_mid : ∀ (p : List Char), (∀ c ∈ p, routeChar c = true) →
    replaceMark (replaceSingleWild (replaceDoubleWild p)) =
      (patToks p).flatMap tokMid := by
  intro p
  induction p using patToks.induct with
  | case1 =>
    intro _
    simp [patToks, replaceDoubleWild, replaceSingleWild, replaceMark, replaceMarkF]
  | case2 c rest h ih =>
    intro hp
    obtain ⟨hc, hh⟩ := h
    subst hc
    obtain ⟨t, ht⟩ : ∃ t, rest = '*' :: t := by
      cases rest with
      | nil => simp at hh
      | cons d t =>
        simp only [List.head?] at hh
        injection hh with hd
        exact ⟨t, by rw [hd]⟩
    subst ht
    simp only [List.tail_cons] at ih
    rw [show replaceDoubleWild ('*' :: '*' :: t) = DOUBLE_MARK ++ replaceDoubleWild t by
        rw [replaceDoubleWild, if_pos ⟨rfl, rfl⟩],
      replaceSingleWild_append _ _ (by decide),
      replaceMark_mark]
    rw [ih (fun c2 h2 => hp c2 (List.mem_cons_of_mem _ (List.mem_cons_of_mem _ h2)))]
    rw [patToks, if_pos ⟨rfl, by simp⟩]
    rfl
  | case3 rest h1 ih =>
    intro hp
    have hrest : replaceDoubleWild ('*' :: rest) = '*' :: replaceDoubleWild rest := by
      cases rest with
      | nil => rfl
      | cons d t =>
        have hd : d ≠ '*' := by
          intro hd
          exact h1 ⟨rfl, by rw [hd]; rfl⟩
        rw [replaceDoubleWild, if_neg (fun hcon => hd hcon.2)]
    rw [hrest,
      show replaceSingleWild ('*' :: replaceDoubleWild rest) =
        VAR_SEQ ++ replaceSingleWild (replaceDoubleWild rest) by
        rw [replaceSingleWild, if_pos rfl],
      replaceMark_var_seq,
      ih (fun c2 h2 => hp c2 (List.mem_cons_of_mem _ h2)),
      patToks, if_neg h1, if_pos rfl]
    rfl
  | case4 rest h1 h2 ih =>
    intro hp
    have hpr : ∀ c2 ∈ rest, routeChar c2 = true :=
      fun c2 h => hp c2 (List.mem_cons_of_mem _ h)
    have hnstar : ∀ c2 ∈ rest.takeWhile varClassChar, c2 ≠ '*' :=
      fun c2 h => varClassChar_ne_star c2 (List.mem_takeWhile_imp h)
    have hnund : ∀ c2 ∈ rest.takeWhile varClassChar, c2 ≠ '_' :=
      fun c2 h => routeChar_ne_underscore c2
        (hpr c2 ((List.takeWhile_sublist varClassChar).subset h))
    have hsplit : rest.takeWhile varClassChar ++ rest.dropWhile varClassChar = rest :=
      List.takeWhile_append_dropWhile varClassChar rest
    have hD : replaceDoubleWild rest =
        rest.takeWhile varClassChar ++ replaceDoubleWild (rest.dropWhile varClassChar) := by
      conv_lhs => rw [← hsplit]
      exact replaceDoubleWild_append _ _ hnstar
    rw [patToks, if_neg h1, if_neg h2, if_pos rfl,
      replaceDoubleWild_cons_ne ':' _ (by decide), hD,
      replaceSingleWild_cons_ne ':' _ (by decide),
      replaceSingleWild_append _ _ hnstar,
      replaceMark_cons_ne ':' _ (by decide),
      replaceMark_append _ _ hnund,
      ih (fun c2 h => hpr c2 ((List.dropWhile_sublist varClassChar).subset h))]
    simp [tokMid]
  | case5 c rest h1 h2 h3 ih =>
    intro hp
    have hc : routeChar c = true := hp c (List.mem_cons_self _ _)
    rw [replaceDoubleWild_cons_ne c _ h2,
      replaceSingleWild_cons_ne c _ h2,
      replaceMark_cons_ne c _ (routeChar_ne_underscore c hc),
      ih (fun c2 h2b => hp c2 (List.mem_cons_of_mem _ h2b)),
      patToks, if_neg h1, if_neg h2, if_neg h3]
    rfl


theorem replaceVarSeqGo_append_false (n x : List Char) (hn : ∀ c ∈ n, c ≠ ':') :
    replaceVarSeqGo (n ++ x) false = n ++ replaceVarSeqGo x false := by
  induction n with
  | nil => rfl
  | cons c n' ih =>
    rw [List.cons_append, replaceVarSeqGo, if_neg (hn c (List.mem_cons_self _ _)),
      ih (fun c2 h2 => hn c2 (List.mem_cons_of_mem _ h2)), List.cons_append]

theorem replaceVarSeqGo_consume (n x : List Char) (hn : ∀ c ∈ n, varClassChar c = true) :
    replaceVarSeqGo (n ++ x) true = replaceVarSeqGo x true := by
  induction n with
  | nil => rfl
  | cons c n' ih =>
    rw [List.cons_append, replaceVarSeqGo, if_pos (hn c (List.mem_cons_self _ _))]
    exact ih (fun c2 h2 => hn c2 (List.mem_cons_of_mem _ h2))

theorem replaceVarSeqGo_true_eq_false (s : List Char)
    (h : ∀ c t, s = c :: t → varClassChar c = false) :
    replaceVarSeqGo s true = replaceVarSeqGo s false := by
  cases s with
  | nil => rfl
  | cons c t =>
    rw [replaceVarSeqGo, if_neg (by rw [h c t rfl]; exact Bool.false_ne_true),
      replaceVarSeqGo]

theorem replaceVarSeq_toks : ∀ (toks : List PatTok),
    (∀ t ∈ toks, TokOk t) → List.Chain' tokBoundary toks →
    replaceVarSeq (toks.flatMap tokMid) = toks.flatMap tokBody := by
  intro toks
  induction toks with
  | nil => intro _ _; rfl
  | cons t rest ih =>
    intro hok hch
    have hokr : ∀ t2 ∈ rest, TokOk t2 := fun t2 h2 => hok t2 (List.mem_cons_of_mem _ h2)
    have hchr : List.Chain' tokBoundary rest := hch.tail
    have iht := ih hokr hchr
    rw [replaceVarSeq] at iht ⊢
    cases t with
    | lit c =>
      obtain ⟨_, _, hc3⟩ : TokOk (PatTok.lit c) := hok _ (List.mem_cons_self _ _)
      rw [List.flatMap_cons, show tokMid (PatTok.lit c) = [c] from rfl,
        List.singleton_append, replaceVarSeqGo, if_neg hc3, iht,
        List.flatMap_cons, show tokBody (PatTok.lit c) = [c] from rfl,
        List.singleton_append]
    | star =>
      rw [List.flatMap_cons, show tokMid PatTok.star = VAR_SEQ from rfl,
        replaceVarSeqGo_append_false _ _ (by decide), iht,
        List.flatMap_cons, show tokBody PatTok.star = VAR_SEQ from rfl]
    | dstar =>
      rw [List.flatMap_cons, show tokMid PatTok.dstar = VAR_SEQ_WITH_SLASH from rfl,
        replaceVarSeqGo_append_false _ _ (by decide), iht,
        List.flatMap_cons, show tokBody PatTok.dstar = VAR_SEQ_WITH_SLASH from rfl]
    | varTok n =>
      have hvc : ∀ c ∈ n, varClassChar c = true :=
        fun c h2 => (hok _ (List.mem_cons_self _ _) c h2).1
      rw [List.flatMap_cons, show tokMid (PatTok.varTok n) = ':' :: n from rfl,
        List.cons_append, replaceVarSeqGo, if_pos rfl,
        replaceVarSeqGo_consume _ _ hvc]
      have hhead : ∀ c t2, rest.flatMap tokMid = c :: t2 → varClassChar c = false := by
        intro c t2 heq
        cases rest with
        | nil => simp at heq
        | cons t3 rest2 =>
          rw [List.flatMap_cons] at heq
          cases t3 with
          | lit c3 =>
            have hb : tokBoundary (PatTok.varTok n) (PatTok.lit c3) :=
              (List.chain'_cons.mp hch).1
            rw [show tokMid (PatTok.lit c3) = [c3] from rfl,
              List.singleton_append] at heq
            injection heq with h1 _
            rw [← h1]
            exact hb
          | star =>
            rw [show tokMid PatTok.star = '[' :: VAR_SEQ.tail from rfl,
              List.cons_append] at heq
            injection heq with h1 _
            rw [← h1]
            decide
          | dstar =>
            rw [show tokMid PatTok.dstar = '[' :: VAR_SEQ_WITH_SLASH.tail from rfl,
              List.cons_append] at heq
            injection heq with h1 _
            rw [← h1]
            decide
          | varTok m =>
            rw [show tokMid (PatTok.varTok m) = ':' :: m from rfl,
              List.cons_append] at heq
            injection heq with h1 _
            rw [← h1]
            decide
      rw [replaceVarSeqGo_true_eq_false _ hhead, iht,
        List.flatMap_cons,
        show tokBody (PatTok.varTok n) = VAR_SEQ_WITH_CAPTURE from rfl]


theorem patToks_head_lit (s : List Char) (c : Char) (ts : List PatTok)
    (h : patToks s = PatTok.lit c :: ts) : s.head? = some c := by
  cases s with
  | nil => rw [patToks] at h; cases h
  | cons c1 rest =>
    rw [patToks] at h
    by_cases h1 : c1 = '*' ∧ rest.head? = some '*'
    · rw [if_pos h1] at h; simp at h
    · rw [if_neg h1] at h
      by_cases h2 : c1 = '*'
      · rw [if_pos h2] at h; simp at h
      · rw [if_neg h2] at h
        by_cases h3 : c1 = ':'
        · rw [if_pos h3] at h; simp at h
        · rw [if_neg h3] at h
          injection h with hlit _
          injection hlit with hc
          rw [hc]
          rfl

theorem patToks_tokOk : ∀ (p : List Char), (∀ c ∈ p, routeChar c = true) →
    ∀ t ∈ patToks p, TokOk t := by
  intro p
  induction p using patToks.induct with
  | case1 => intro _ t ht; rw [patToks] at ht; cases ht
  | case2 c rest h ih =>
    intro hp t ht
    obtain ⟨hc, hh⟩ := h
    subst hc
    rw [patToks, if_pos ⟨rfl, hh⟩] at ht
    rcases List.mem_cons.mp ht with h1 | h1
    · subst h1; trivial
    · exact ih (fun c2 h2 => hp c2 (List.mem_cons_of_mem _
        ((List.tail_sublist rest).subset h2))) t h1
  | case3 rest h1 ih =>
    intro hp t ht
    rw [patToks, if_neg h1, if_pos rfl] at ht
    rcases List.mem_cons.mp ht with h2 | h2
    · subst h2; trivial
    · exact ih (fun c2 h => hp c2 (List.mem_cons_of_mem _ h)) t h2
  | case4 rest h1 h2 ih =>
    intro hp t ht
    rw [patToks, if_neg h1, if_neg h2, if_pos rfl] at ht
    rcases List.mem_cons.mp ht with h3 | h3
    · subst h3
      intro c2 h4
      exact ⟨List.mem_takeWhile_imp h4,
        hp c2 (List.mem_cons_of_mem _ ((List.takeWhile_sublist varClassChar).subset h4))⟩
    · exact ih (fun c2 h => hp c2 (List.mem_cons_of_mem _
        ((List.dropWhile_sublist varClassChar).subset h))) t h3
  | case5 c rest h1 h2 h3 ih =>
    intro hp t ht
    rw [patToks, if_neg h1, if_neg h2, if_neg h3] at ht
    rcases List.mem_cons.mp ht with h4 | h4
    · subst h4
      exact ⟨hp c (List.mem_cons_self _ _), h2, h3⟩
    · exact ih (fun c2 h => hp c2 (List.mem_cons_of_mem _ h)) t h4

theorem tokBoundary_of_not_var (t1 t2 : PatTok) (h : ∀ n, t1 ≠ PatTok.varTok n) :
    tokBoundary t1 t2 := by
  cases t1 with
  | varTok n => exact absurd rfl (h n)
  | lit c => cases t2 <;> trivial
  | star => cases t2 <;> trivial
  | dstar => cases t2 <;> trivial

theorem patToks_boundary_var (n : List Char) (s : List Char) (b : PatTok)
    (hb : (patToks (s.dropWhile varClassChar)).head? = some b) :
    tokBoundary (PatTok.varTok n) b := by
  cases b with
  | lit c =>
    obtain ⟨ts, hts⟩ : ∃ ts, patToks (s.dropWhile varClassChar) = PatTok.lit c :: ts := by
      cases hpt : patToks (s.dropWhile varClassChar) with
      | nil => rw [hpt] at hb; cases hb
      | cons t1 ts1 =>
        rw [hpt] at hb
        injection hb with hb1
        exact ⟨ts1, by rw [hb1]⟩
    have hhd : (s.dropWhile varClassChar).head? = some c := patToks_head_lit _ _ _ hts
    have := List.head?_dropWhile_not varClassChar s
    rw [hhd] at this
    exact this
  | star => trivial
  | dstar => trivial
  | varTok m => trivial

theorem patToks_chain : ∀ (p : List Char), List.Chain' tokBoundary (patToks p) := by
  intro p
  induction p using patToks.induct with
  | case1 => rw [patToks]; exact List.chain'_nil
  | case2 c rest h ih =>
    obtain ⟨hc, hh⟩ := h
    subst hc
    rw [patToks, if_pos ⟨rfl, hh⟩]
    exact List.chain'_cons'.mpr
      ⟨fun b _ => tokBoundary_of_not_var _ b (fun n h => by cases h), ih⟩
  | case3 rest h1 ih =>
    rw [patToks, if_neg h1, if_pos rfl]
    exact List.chain'_cons'.mpr
      ⟨fun b _ => tokBoundary_of_not_var _ b (fun n h => by cases h), ih⟩
  | case4 rest h1 h2 ih =>
    rw [patToks, if_neg h1, if_neg h2, if_pos rfl]
    exact List.chain'_cons'.mpr
      ⟨fun b hb => patToks_boundary_var _ rest b hb, ih⟩
  | case5 c rest h1 h2 h3 ih =>
    rw [patToks, if_neg h1, if_neg h2, if_neg h3]
    exact List.chain'_cons'.mpr
      ⟨fun b _ => tokBoundary_of_not_var _ b (fun n h => by cases h), ih⟩

theorem create_regex_string_toks (p : List Char) (hp : ∀ c ∈ p, routeChar c = true) :
    create_regex_string p =
      REGEX_START ++ (patToks p).flatMap tokBody ++ REGEX_PARAM_SEQ ++ REGEX_END := by
  rw [create_regex_string]
  rw [pipeline_mid p hp, replaceVarSeq_toks (patToks p) (patToks_tokOk p hp) (patToks_chain p)]

theorem routeChar_char_ne (c d : Char) (hd : routeChar d = false) (h : routeChar c = true) :
    c ≠ d := fun he => by subst he; rw [h] at hd; cases hd

theorem routeChar_not_meta (c : Char) (h : routeChar c = true) (hs : c ≠ '*') :
    isMeta c = false := by
  have h1 : c ≠ '^' := routeChar_char_ne c _ (by decide) h
  have h2 : c ≠ '$' := routeChar_char_ne c _ (by decide) h
  have h3 : c ≠ '(' := routeChar_char_ne c _ (by decide) h
  have h4 : c ≠ ')' := routeChar_char_ne c _ (by decide) h
  have h5 : c ≠ '[' := routeChar_char_ne c _ (by decide) h
  have h6 : c ≠ ']' := routeChar_char_ne c _ (by decide) h
  have h7 : c ≠ '?' := routeChar_char_ne c _ (by decide) h
  have h8 : c ≠ '\\' := routeChar_char_ne c _ (by decide) h
  have h9 : c ≠ '+' := routeChar_char_ne c _ (by decide) h
  have h10 : c ≠ '.' := routeChar_char_ne c _ (by decide) h
  have h11 : c ≠ '|' := routeChar_char_ne c _ (by decide) h
  have h12 : c ≠ '{' := routeChar_char_ne c _ (by decide) h
  have h13 : c ≠ '}' := routeChar_char_ne c _ (by decide) h
  simp [isMeta, h1, h2, h3, h4, h5, h6, h7, h8, h9, h10, h11, h12, h13, hs]

theorem step_lit (c : Char) (items : List RItem) (h : routeChar c = true) (hs : c ≠ '*') :
    step ⟨items, none, PMode.plain⟩ c =
      some ⟨RItem.atom (RAtom.lit c) :: items, none, PMode.plain⟩ := by
  have hm : isMeta c = false := routeChar_not_meta c h hs
  have h3 : c ≠ '(' := routeChar_char_ne c _ (by decide) h
  have h4 : c ≠ ')' := routeChar_char_ne c _ (by decide) h
  have h2 : c ≠ '$' := routeChar_char_ne c _ (by decide) h
  have h5 : c ≠ '[' := routeChar_char_ne c _ (by decide) h
  have h8 : c ≠ '\\' := routeChar_char_ne c _ (by decide) h
  simp [step, stepPlain, emitAtom, h5, h8, h3, h4, h2, hm]

theorem feed_var_seq (items : List RItem) :
    VAR_SEQ.foldlM step ⟨items, none, PMode.plain⟩ =
      some ⟨RItem.atom (RAtom.clsStar varRanges) :: items, none, PMode.plain⟩ := rfl

theorem feed_var_slash (items : List RItem) :
    VAR_SEQ_WITH_SLASH.foldlM step ⟨items, none, PMode.plain⟩ =
      some ⟨RItem.atom (RAtom.clsStar varSlashRanges) :: items, none, PMode.plain⟩ := rfl

theorem feed_var_capture (items : List RItem) :
    VAR_SEQ_WITH_CAPTURE.foldlM step ⟨items, none, PMode.plain⟩ =
      some ⟨items, none, PMode.afterGrp [RAtom.clsStar varRanges]⟩ := rfl

theorem feed_query_end (items : List RItem) :
    (REGEX_PARAM_SEQ ++ REGEX_END).foldlM step ⟨items, none, PMode.plain⟩ =
      some ⟨queryItem :: items, none, PMode.done⟩ := rfl

theorem step_afterGrp (g : List RAtom) (items : List RItem) (c : Char) (h1 : c ≠ '?')
    (h2 : c ≠ '*') :
    step ⟨items, none, PMode.afterGrp g⟩ c =
      step ⟨RItem.group g :: items, none, PMode.plain⟩ c := by
  simp [step, h1, h2]

theorem foldlM_afterGrp (c : Char) (t : List Char) (g : List RAtom) (items : List RItem)
    (h1 : c ≠ '?') (h2 : c ≠ '*') :
    (c :: t).foldlM step ⟨items, none, PMode.afterGrp g⟩ =
      (c :: t).foldlM step ⟨RItem.group g :: items, none, PMode.plain⟩ := by
  rw [List.foldlM_cons, List.foldlM_cons, step_afterGrp g items c h1 h2]

theorem flat_head_ne (rest : List PatTok) (hok : ∀ t ∈ rest, TokOk t) :
    ∃ c t, rest.flatMap tokBody ++ (REGEX_PARAM_SEQ ++ REGEX_END) = c :: t ∧
      c ≠ '?' ∧ c ≠ '*' := by
  cases rest with
  | nil =>
    exact ⟨'(', REGEX_PARAM_SEQ.tail ++ REGEX_END, rfl, by decide, by decide⟩
  | cons t2 rest2 =>
    cases t2 with
    | lit c2 =>
      obtain ⟨hr, hs, _⟩ := hok _ (List.mem_cons_self _ _)
      exact ⟨c2, rest2.flatMap tokBody ++ (REGEX_PARAM_SEQ ++ REGEX_END),
        rfl, routeChar_char_ne c2 '?' (by decide) hr, hs⟩
    | star =>
      exact ⟨'[', VAR_SEQ.tail ++ (rest2.flatMap tokBody ++ (REGEX_PARAM_SEQ ++ REGEX_END)),
        rfl, by decide, by decide⟩
    | dstar =>
      exact ⟨'[', VAR_SEQ_WITH_SLASH.tail ++
        (rest2.flatMap tokBody ++ (REGEX_PARAM_SEQ ++ REGEX_END)), rfl, by decide, by decide⟩
    | varTok n =>
      exact ⟨'(', VAR_SEQ_WITH_CAPTURE.tail ++
        (rest2.flatMap tokBody ++ (REGEX_PARAM_SEQ ++ REGEX_END)), rfl, by decide, by decide⟩

theorem parse_toks : ∀ (toks : List PatTok), (∀ t ∈ toks, TokOk t) →
    ∀ (items : List RItem),
      ((toks.flatMap tokBody ++ (REGEX_PARAM_SEQ ++ REGEX_END)).foldlM step
          ⟨items, none, PMode.plain⟩).bind closeParse =
        some (items.reverse ++ (toks.map tokItem ++ [queryItem])) := by
  intro toks
  induction toks with
  | nil =>
    intro _ items
    rw [List.flatMap_nil, List.nil_append, feed_query_end]
    simp [closeParse]
  | cons tk rest ih =>
    intro hok items
    have hokr : ∀ t ∈ rest, TokOk t := fun t ht => hok t (List.mem_cons_of_mem _ ht)
    rw [List.flatMap_cons, List.append_assoc, List.foldlM_append]
    cases tk with
    | lit c =>
      obtain ⟨hr, hs, _⟩ := hok _ (List.mem_cons_self _ _)
      have hfeed : (tokBody (PatTok.lit c)).foldlM step ⟨items, none, PMode.plain⟩ =
          some ⟨RItem.atom (RAtom.lit c) :: items, none, PMode.plain⟩ := by
        show [c].foldlM step _ = _
        rw [List.foldlM_cons, step_lit c items hr hs]
        rfl
      rw [hfeed]
      show ((rest.flatMap tokBody ++ (REGEX_PARAM_SEQ ++ REGEX_END)).foldlM step
          ⟨RItem.atom (RAtom.lit c) :: items, none, PMode.plain⟩).bind closeParse = _
      rw [ih hokr]
      simp [tokItem]
    | star =>
      rw [show tokBody PatTok.star = VAR_SEQ from rfl, feed_var_seq]
      show ((rest.flatMap tokBody ++ (REGEX_PARAM_SEQ ++ REGEX_END)).foldlM step
          ⟨RItem.atom (RAtom.clsStar varRanges) :: items, none, PMode.plain⟩).bind
          closeParse = _
      rw [ih hokr]
      simp [tokItem]
    | dstar =>
      rw [show tokBody PatTok.dstar = VAR_SEQ_WITH_SLASH from rfl, feed_var_slash]
      show ((rest.flatMap tokBody ++ (REGEX_PARAM_SEQ ++ REGEX_END)).foldlM step
          ⟨RItem.atom (RAtom.clsStar varSlashRanges) :: items, none, PMode.plain⟩).bind
          closeParse = _
      rw [ih hokr]
      simp [tokItem]
    | varTok n =>
      rw [show tokBody (PatTok.varTok n) = VAR_SEQ_WITH_CAPTURE from rfl, feed_var_capture]
      show ((rest.flatMap tokBody ++ (REGEX_PARAM_SEQ ++ REGEX_END)).foldlM step
          ⟨items, none, PMode.afterGrp [RAtom.clsStar varRanges]⟩).bind closeParse = _
      obtain ⟨c, t, hct, h1, h2⟩ := flat_head_ne rest hokr
      rw [hct, foldlM_afterGrp c t _ items h1 h2, ← hct, ih hokr]
      simp [tokItem]

theorem create_regex_toks (p : List Char) (hp : ∀ c ∈ p, routeChar c = true) :
    create_regex p = some ((patToks p).map tokItem ++ [queryItem]) := by
  rw [create_regex, create_regex_string_toks p hp, List.append_assoc, List.append_assoc]
  show regexNew ('^' :: ((patToks p).flatMap tokBody ++ (REGEX_PARAM_SEQ ++ REGEX_END))) = _
  show (((patToks p).flatMap tokBody ++ (REGEX_PARAM_SEQ ++ REGEX_END)).foldlM step
      ⟨[], none, PMode.plain⟩).bind closeParse = _
  rw [parse_toks (patToks p) (patToks_tokOk p hp) []]
  simp

theorem collectVarsGo_pending : ∀ (rest acc : List Char),
    collectVarsGo rest (some acc) =
      (acc.reverse ++ rest.takeWhile varClassChar) ::
        collectVarsGo (rest.dropWhile varClassChar) none := by
  intro rest
  induction rest with
  | nil => intro acc; simp [collectVarsGo]
  | cons c r ih =>
    intro acc
    by_cases hv : varClassChar c = true
    · rw [show collectVarsGo (c :: r) (some acc) = collectVarsGo r (some (c :: acc)) from by
        simp [collectVarsGo, hv]]
      rw [ih (c :: acc)]
      simp [List.takeWhile_cons, List.dropWhile_cons, hv, List.append_assoc]
    · by_cases hc : c = ':'
      · subst hc
        rw [show collectVarsGo (':' :: r) (some acc) =
            acc.reverse :: collectVarsGo r (some []) from by simp [collectVarsGo, hv]]
        simp [List.takeWhile_cons, List.dropWhile_cons, hv, collectVarsGo]
      · rw [show collectVarsGo (c :: r) (some acc) =
            acc.reverse :: collectVarsGo r none from by simp [collectVarsGo, hv, hc]]
        simp [List.takeWhile_cons, List.dropWhile_cons, hv, collectVarsGo, hc]

theorem collectVars_toks : ∀ (p : List Char), collectVarNames p = varNames (patToks p) := by
  intro p
  induction p using patToks.induct with
  | case1 => rw [patToks]; rfl
  | case2 c rest h ih =>
    obtain ⟨hc, hh⟩ := h
    subst hc
    rw [patToks, if_pos ⟨rfl, hh⟩]
    cases rest with
    | nil => cases hh
    | cons r0 rtail =>
      have hr0 : r0 = '*' := by simpa using hh
      subst hr0
      show collectVarsGo ('*' :: '*' :: rtail) none = varNames (PatTok.dstar :: patToks rtail)
      rw [show collectVarsGo ('*' :: '*' :: rtail) none = collectVarsGo rtail none from by
        simp [collectVarsGo]]
      exact ih
  | case3 rest h1 ih =>
    rw [patToks, if_neg h1, if_pos rfl]
    show collectVarsGo ('*' :: rest) none = varNames (PatTok.star :: patToks rest)
    rw [show collectVarsGo ('*' :: rest) none = collectVarsGo rest none from by
      simp [collectVarsGo]]
    exact ih
  | case4 rest h1 h2 ih =>
    rw [patToks, if_neg h1, if_neg h2, if_pos rfl]
    show collectVarsGo (':' :: rest) none =
      varNames (PatTok.varTok (rest.takeWhile varClassChar) ::
        patToks (rest.dropWhile varClassChar))
    rw [show collectVarsGo (':' :: rest) none = collectVarsGo rest (some []) from by
      simp [collectVarsGo]]
    rw [collectVarsGo_pending rest []]
    show _ :: collectVarNames (rest.dropWhile varClassChar) =
      rest.takeWhile varClassChar :: varNames (patToks (rest.dropWhile varClassChar))
    rw [ih]
    simp
  | case5 c rest h1 h2 h3 ih =>
    rw [patToks, if_neg h1, if_neg h2, if_neg h3]
    show collectVarsGo (c :: rest) none = varNames (PatTok.lit c :: patToks rest)
    rw [show collectVarsGo (c :: rest) none = collectVarsGo rest none from by
      simp [collectVarsGo, h3]]
    exact ih

theorem countGroups_map_tokItem : ∀ (toks : List PatTok),
    countGroups (toks.map tokItem) = (varNames toks).length := by
  intro toks
  induction toks with
  | nil => rfl
  | cons t rest ih =>
    cases t <;> simp [varNames, tokItem, countGroups, List.filterMap_cons] at ih ⊢ <;> omega

theorem countGroups_append : ∀ (xs ys : List RItem),
    countGroups (xs ++ ys) = countGroups xs + countGroups ys := by
  intro xs ys
  induction xs with
  | nil => simp [countGroups]
  | cons i rest ih => cases i <;> simp [countGroups, ih] <;> omega

theorem itemsMatches_caps_length : ∀ (items : List RItem) (s : List Char)
    (pr : List Char × List (Option (List Char))), pr ∈ itemsMatches items s →
      pr.2.length = countGroups items := by
  intro items
  induction items with
  | nil =>
    intro s pr h
    simp only [itemsMatches, List.mem_singleton] at h
    subst h
    rfl
  | cons i rest ih =>
    intro s pr h
    simp only [itemsMatches, List.mem_flatMap, List.mem_map] at h
    obtain ⟨pr1, h1, pr2, h2, hpr⟩ := h
    subst hpr
    have hr := ih pr1.1 pr2 h2
    cases i with
    | atom a =>
      simp only [itemMatches, List.mem_map] at h1
      obtain ⟨r, hrr, hpr1⟩ := h1
      subst hpr1
      simp [countGroups, hr]
    | group g =>
      simp only [itemMatches, List.mem_map] at h1
      obtain ⟨r, hrr, hpr1⟩ := h1
      subst hpr1
      simp [countGroups, hr]
    | groupOpt g =>
      simp only [itemMatches, List.mem_append, List.mem_map, List.mem_singleton] at h1
      rcases h1 with ⟨r, hrr, hpr1⟩ | hpr1 <;> subst hpr1 <;>
        simp [countGroups, hr]

theorem reCaptures_mem (re : RE) (s : List Char) (caps : List (Option (List Char)))
    (h : reCaptures re s = some caps) :
    ∃ pr ∈ itemsMatches re s, pr.2 = caps ∧ pr.1 = [] := by
  rw [reCaptures] at h
  cases hh : ((itemsMatches re s).filter (fun pr => pr.1.isEmpty)).head? with
  | none => rw [hh] at h; cases h
  | some pr =>
    rw [hh] at h
    have hca : pr.2 = caps := by simpa using h
    have hmem : pr ∈ (itemsMatches re s).filter (fun pr => pr.1.isEmpty) := by
      cases hl : (itemsMatches re s).filter (fun pr => pr.1.isEmpty) with
      | nil => rw [hl] at hh; cases hh
      | cons x xs =>
        rw [hl] at hh
        simp only [List.head?_cons, Option.some.injEq] at hh
        subst hh
        exact List.mem_cons_self _ _
    have hfm := List.mem_filter.mp hmem
    exact ⟨pr, hfm.1, hca, by simpa [List.isEmpty_iff] using hfm.2⟩

theorem find_of_unique {α : Type} (pred : α → Bool) :
    ∀ (l : List α) (x : α), x ∈ l → pred x = true →
      (∀ y ∈ l, pred y = true → y = x) → l.find? pred = some x := by
  intro l
  induction l with
  | nil => intro x hx _ _; cases hx
  | cons a l' ih =>
    intro x hx hpx huniq
    by_cases ha : pred a = true
    · have hax : a = x := huniq a (List.mem_cons_self _ _) ha
      subst hax
      rw [List.find?_cons_of_pos _ ha]
    · rw [List.find?_cons_of_neg _ ha]
      have hx' : x ∈ l' := by
        cases hx with
        | head => exact absurd hpx ha
        | tail _ hmem => exact hmem
      exact ih x hx' hpx (fun y hy hp => huniq y (List.mem_cons_of_mem _ hy) hp)

theorem lookup_variable_info_of_nodup (p : List Char)
    (hnd : (collectVarNames p).Nodup) (i : Nat)
    (hi : i < (collectVarNames p).length) :
    List.lookup (String.mk ((collectVarNames p).get ⟨i, hi⟩)) (get_variable_info p) =
      some i := by
  rw [get_variable_info, foldl_hmInsert_lookup]
  have hfind : ((collectVarNames p).enum.map
      (fun iv => (String.mk iv.2, iv.1))).reverse.find?
        (fun x => x.1 == String.mk ((collectVarNames p).get ⟨i, hi⟩)) =
      some (String.mk ((collectVarNames p).get ⟨i, hi⟩), i) := by
    apply find_of_unique
    · rw [List.mem_reverse, List.mem_map]
      refine ⟨(i, (collectVarNames p).get ⟨i, hi⟩), ?_, rfl⟩
      rw [List.mk_mem_enum_iff_getElem?, List.get_eq_getElem]
      exact List.getElem?_eq_getElem hi
    · simp
    · intro y hy hpy
      rw [List.mem_reverse, List.mem_map] at hy
      obtain ⟨⟨j, a⟩, hja, hya⟩ := hy
      rw [List.mk_mem_enum_iff_getElem?] at hja
      have hj : j < (collectVarNames p).length := by
        cases hjl : decide (j < (collectVarNames p).length) with
        | true => exact of_decide_eq_true hjl
        | false =>
          rw [List.getElem?_eq_none (Nat.le_of_not_lt (of_decide_eq_false hjl))] at hja
          cases hja
      have ha : a = (collectVarNames p).get ⟨j, hj⟩ := by
        rw [List.getElem?_eq_getElem hj] at hja
        rw [List.get_eq_getElem]
        exact (Option.some.inj hja).symm
      subst hya
      have hy1 : String.mk a = String.mk ((collectVarNames p).get ⟨i, hi⟩) := by
        simpa using hpy
      have haa : a = (collectVarNames p).get ⟨i, hi⟩ := by injection hy1
      have hget : (collectVarNames p).get ⟨j, hj⟩ = (collectVarNames p).get ⟨i, hi⟩ := by
        rw [← ha, haa]
      have hji : (⟨j, hj⟩ : Fin (collectVarNames p).length) = ⟨i, hi⟩ :=
        hnd.get_inj_iff.mp hget
      have hj_i : j = i := by simpa using congrArg Fin.val hji
      simp [haa, hj_i]
  rw [hfind]

/-- C6: for a route-syntax pattern with distinct variable names, each
variable's position in the variable-position mapping equals its zero-based
index in left-to-right order of appearance (so a pattern with `:a` before
`:b` maps `a` to 0 and `b` to 1 regardless of intervening literal text or
wildcards), and the compiled matcher consists of exactly one capture
group per variable occurrence, in order of appearance, followed only by
the optional query group — so the variable at position `i` corresponds to
capture group `i + 1` (index `i` of the capture list, the one its
occurrence generated), and every successful match carries one capture per
variable plus the final query capture. -/
theorem c6_variable_positions (p : List Char) (hp : ∀ c ∈ p, routeChar c = true)
    (hnd : (collectVarNames p).Nodup) :
    (∀ (i : Nat) (hi : i < (collectVarNames p).length),
      List.lookup (String.mk ((collectVarNames p).get ⟨i, hi⟩)) (get_variable_info p) =
        some i) ∧
    create_regex p = some ((patToks p).map tokItem ++ [queryItem]) ∧
    collectVarNames p = varNames (patToks p) ∧
    countGroups ((patToks p).map tokItem) = (collectVarNames p).length ∧
    (∀ (s : List Char) (caps : List (Option (List Char))),
      reCaptures ((patToks p).map tokItem ++ [queryItem]) s = some caps →
        caps.length = (collectVarNames p).length + 1) := by
  refine ⟨fun i hi => lookup_variable_info_of_nodup p hnd i hi,
    create_regex_toks p hp, collectVars_toks p, ?_, ?_⟩
  · rw [collectVars_toks p]
    exact countGroups_map_tokItem (patToks p)
  · intro s caps hc
    obtain ⟨pr, hmem, hsnd, _⟩ := reCaptures_mem _ s caps hc
    have hlen := itemsMatches_caps_length _ s pr hmem
    rw [hsnd] at hlen
    rw [hlen, countGroups_append, countGroups_map_tokItem, collectVars_toks p]
    rfl

/-- closed witness for the variable-position claim: in `/x/:a/y/:b`, the
variable `a` is at position 0 and `b` at position 1. -/
theorem c6_variable_positions_witness :
    (∀ c ∈ "/x/:a/y/:b".data, routeChar c = true) ∧
    (collectVarNames "/x/:a/y/:b".data).Nodup ∧
    List.lookup "a" (get_variable_info "/x/:a/y/:b".data) = some 0 ∧
    List.lookup "b" (get_variable_info "/x/:a/y/:b".data) = some 1 := by
  refine ⟨by decide, by decide, ?_, ?_⟩
  · exact (c6_variable_positions "/x/:a/y/:b".data (by decide) (by decide)).1 0 (by decide)
  · exact (c6_variable_positions "/x/:a/y/:b".data (by decide) (by decide)).1 1 (by decide)

theorem flatMap_congr_mem {α β : Type} (f g : α → List β) : ∀ (l : List α),
    (∀ a ∈ l, f a = g a) → l.flatMap f = l.flatMap g := by
  intro l
  induction l with
  | nil => intro _; rfl
  | cons a l' ih =>
    intro h
    rw [List.flatMap_cons, List.flatMap_cons, h a (List.mem_cons_self _ _),
      ih (fun b hb => h b (List.mem_cons_of_mem _ hb))]

theorem flatMap_id_singleton {α : Type} : ∀ (l : List α),
    l.flatMap (fun x => [x]) = l := by
  intro l
  induction l with
  | nil => rfl
  | cons a t ih => rw [List.flatMap_cons, ih]; rfl

theorem atomMatches_suffix : ∀ (a : RAtom) (s r : List Char),
    r ∈ atomMatches a s → r <:+ s := by
  intro a s r h
  cases a with
  | lit c =>
    cases s with
    | nil => cases h
    | cons c2 rest =>
      rw [atomMatches] at h
      by_cases hc : c2 = c
      · rw [if_pos hc, List.mem_singleton] at h
        rw [h]
        exact List.suffix_cons c2 rest
      · rw [if_neg hc] at h; cases h
  | cls rs =>
    cases s with
    | nil => cases h
    | cons c2 rest =>
      rw [atomMatches] at h
      by_cases hc : inClass rs c2 = true
      · rw [if_pos hc, List.mem_singleton] at h
        rw [h]
        exact List.suffix_cons c2 rest
      · rw [if_neg hc] at h; cases h
  | clsStar rs =>
    simp only [atomMatches, starSuffixes, List.mem_map, List.mem_range] at h
    obtain ⟨j, _, hj⟩ := h
    rw [← hj]
    exact List.drop_suffix _ s

theorem atomsMatches_suffix : ∀ (g : List RAtom) (s r : List Char),
    r ∈ atomsMatches g s → r <:+ s := by
  intro g
  induction g with
  | nil =>
    intro s r h
    rw [atomsMatches, List.mem_singleton] at h
    rw [h]
  | cons a g' ih =>
    intro s r h
    rw [atomsMatches, List.mem_flatMap] at h
    obtain ⟨r1, h1, h2⟩ := h
    exact (ih r1 r h2).trans (atomMatches_suffix a s r1 h1)

theorem itemMatches_suffix : ∀ (i : RItem) (s : List Char)
    (pr : List Char × List (Option (List Char))), pr ∈ itemMatches i s → pr.1 <:+ s := by
  intro i s pr h
  cases i with
  | atom a =>
    rw [itemMatches, List.mem_map] at h
    obtain ⟨r, hr, hpr⟩ := h
    subst hpr
    exact atomMatches_suffix a s r hr
  | group g =>
    rw [itemMatches, List.mem_map] at h
    obtain ⟨r, hr, hpr⟩ := h
    subst hpr
    exact atomsMatches_suffix g s r hr
  | groupOpt g =>
    rw [itemMatches, List.mem_append, List.mem_map] at h
    rcases h with ⟨r, hr, hpr⟩ | hpr
    · subst hpr
      exact atomsMatches_suffix g s r hr
    · rw [List.mem_singleton] at hpr
      subst hpr
      exact List.suffix_refl s

theorem itemsMatches_suffix : ∀ (items : List RItem) (s : List Char)
    (pr : List Char × List (Option (List Char))), pr ∈ itemsMatches items s →
      pr.1 <:+ s := by
  intro items
  induction items with
  | nil =>
    intro s pr h
    rw [itemsMatches, List.mem_singleton] at h
    subst h
    exact List.suffix_refl s
  | cons i rest ih =>
    intro s pr h
    rw [itemsMatches, List.mem_flatMap] at h
    obtain ⟨pr1, h1, h2⟩ := h
    rw [List.mem_map] at h2
    obtain ⟨pr2, hm2, hpr⟩ := h2
    subst hpr
    exact (ih pr1.1 pr2 hm2).trans (itemMatches_suffix i s pr1 h1)

theorem takeWhile_append_notHead (f : Char → Bool) : ∀ (p q : List Char),
    (∀ c, q.head? = some c → f c = false) →
    (p ++ q).takeWhile f = p.takeWhile f := by
  intro p
  induction p with
  | nil =>
    intro q hq
    cases q with
    | nil => rfl
    | cons c qt =>
      rw [List.nil_append, List.takeWhile_cons, hq c rfl]
      rfl
  | cons x p' ih =>
    intro q hq
    rw [List.cons_append, List.takeWhile_cons, List.takeWhile_cons]
    by_cases hx : f x = true
    · rw [if_pos hx, if_pos hx, ih q hq]
    · rw [if_neg hx, if_neg hx]

theorem atomMatches_append_q (a : RAtom) (ha : noQAtom a) (p q : List Char)
    (hp : '?' ∉ p) (hq : q.head? = some '?') :
    atomMatches a (p ++ q) = (atomMatches a p).map (fun r => r ++ q) := by
  have hqf : ∀ (f : Char → Bool), f '?' = false → ∀ c, q.head? = some c → f c = false := by
    intro f hf c hc
    rw [hq] at hc
    have : c = '?' := (Option.some.inj hc).symm
    rw [this]
    exact hf
  cases a with
  | lit c =>
    have hc : c ≠ '?' := ha
    cases p with
    | nil =>
      cases q with
      | nil => cases hq
      | cons q0 qt =>
        have hq0 : q0 = '?' := Option.some.inj hq
        subst hq0
        rw [List.nil_append]
        simp [atomMatches, hc.symm]
    | cons x p' =>
      rw [List.cons_append, atomMatches, atomMatches]
      by_cases hx : x = c
      · rw [if_pos hx, if_pos hx]; rfl
      · rw [if_neg hx, if_neg hx]; rfl
  | cls rs =>
    have hc : inClass rs '?' = false := ha
    cases p with
    | nil =>
      cases q with
      | nil => cases hq
      | cons q0 qt =>
        have hq0 : q0 = '?' := Option.some.inj hq
        subst hq0
        rw [List.nil_append]
        simp [atomMatches, hc]
    | cons x p' =>
      rw [List.cons_append, atomMatches, atomMatches]
      by_cases hx : inClass rs x = true
      · rw [if_pos hx, if_pos hx]; rfl
      · rw [if_neg hx, if_neg hx]; rfl
  | clsStar rs =>
    have hc : inClass rs '?' = false := ha
    have ht : (p ++ q).takeWhile (inClass rs) = p.takeWhile (inClass rs) :=
      takeWhile_append_notHead _ p q (hqf _ hc)
    have hn : (p.takeWhile (inClass rs)).length ≤ p.length :=
      List.Sublist.length_le (List.takeWhile_sublist _)
    simp only [atomMatches, starSuffixes, ht, List.map_map]
    apply List.map_congr_left
    intro j hj
    rw [List.mem_range] at hj
    show (p ++ q).drop ((p.takeWhile (inClass rs)).length - j) = _
    rw [List.drop_append_of_le_length (by omega)]
    rfl

theorem atomsMatches_append_q : ∀ (g : List RAtom), (∀ a ∈ g, noQAtom a) →
    ∀ (p q : List Char), '?' ∉ p → q.head? = some '?' →
    atomsMatches g (p ++ q) = (atomsMatches g p).map (fun r => r ++ q) := by
  intro g
  induction g with
  | nil => intro _ p q _ _; rw [atomsMatches, atomsMatches]; rfl
  | cons a g' ih =>
    intro hg p q hp hq
    rw [atomsMatches, atomsMatches]
    rw [atomMatches_append_q a (hg a (List.mem_cons_self _ _)) p q hp hq]
    rw [List.flatMap_map, List.map_flatMap]
    apply flatMap_congr_mem
    intro r hr
    have hrp : '?' ∉ r := fun hm => hp ((atomMatches_suffix a p r hr).subset hm)
    exact ih (fun b hb => hg b (List.mem_cons_of_mem _ hb)) r q hrp hq

theorem consumedBy_append (p q r : List Char) (hr : r.length ≤ p.length) :
    consumedBy (p ++ q) (r ++ q) = consumedBy p r := by
  rw [consumedBy, consumedBy]
  simp only [List.length_append]
  rw [show p.length + q.length - (r.length + q.length) = p.length - r.length from by omega]
  exact List.take_append_of_le_length (by omega)

theorem itemMatches_append_q (i : RItem) (hi : noQItem i) (p q : List Char)
    (hp : '?' ∉ p) (hq : q.head? = some '?') :
    itemMatches i (p ++ q) = (itemMatches i p).map (fun pr => (pr.1 ++ q, pr.2)) := by
  cases i with
  | atom a =>
    rw [itemMatches, itemMatches, atomMatches_append_q a hi p q hp hq,
      List.map_map, List.map_map]
    rfl
  | group g =>
    rw [itemMatches, itemMatches, atomsMatches_append_q g hi p q hp hq,
      List.map_map, List.map_map]
    apply List.map_congr_left
    intro r hr
    have hlen : r.length ≤ p.length := (atomsMatches_suffix g p r hr).length_le
    show (r ++ q, [some (consumedBy (p ++ q) (r ++ q))]) = _
    rw [consumedBy_append p q r hlen]
    rfl
  | groupOpt g =>
    rw [itemMatches, itemMatches, atomsMatches_append_q g hi p q hp hq,
      List.map_append, List.map_map, List.map_map]
    congr 1
    apply List.map_congr_left
    intro r hr
    have hlen : r.length ≤ p.length := (atomsMatches_suffix g p r hr).length_le
    show (r ++ q, [some (consumedBy (p ++ q) (r ++ q))]) = _
    rw [consumedBy_append p q r hlen]
    rfl

theorem itemsMatches_append_q : ∀ (items : List RItem), (∀ i ∈ items, noQItem i) →
    ∀ (p q : List Char), '?' ∉ p → q.head? = some '?' →
    itemsMatches items (p ++ q) =
      (itemsMatches items p).map (fun pr => (pr.1 ++ q, pr.2)) := by
  intro items
  induction items with
  | nil => intro _ p q _ _; rw [itemsMatches, itemsMatches]; rfl
  | cons i rest ih =>
    intro hit p q hp hq
    rw [itemsMatches, itemsMatches]
    rw [itemMatches_append_q i (hit i (List.mem_cons_self _ _)) p q hp hq]
    rw [List.flatMap_map, List.map_flatMap]
    apply flatMap_congr_mem
    intro pr hpr
    have hprp : '?' ∉ pr.1 := fun hm => hp ((itemMatches_suffix i p pr hpr).subset hm)
    rw [ih (fun b hb => hit b (List.mem_cons_of_mem _ hb)) pr.1 q hprp hq]
    rw [List.map_map, List.map_map]
    rfl

theorem itemsMatches_append_items : ∀ (xs ys : List RItem) (s : List Char),
    itemsMatches (xs ++ ys) s =
      (itemsMatches xs s).flatMap
        (fun pr => (itemsMatches ys pr.1).map (fun pr2 => (pr2.1, pr.2 ++ pr2.2))) := by
  intro xs
  induction xs with
  | nil =>
    intro ys s
    rw [List.nil_append, itemsMatches, List.flatMap_cons, List.flatMap_nil,
      List.append_nil]
    have : (fun pr2 : List Char × List (Option (List Char)) =>
        (pr2.1, ([] : List (Option (List Char))) ++ pr2.2)) = fun pr2 => pr2 := by
      funext pr2
      rw [List.nil_append]
    rw [this]
    simp
  | cons i xs' ih =>
    intro ys s
    rw [List.cons_append, itemsMatches, itemsMatches, List.flatMap_assoc]
    apply flatMap_congr_mem
    intro pr hpr
    rw [ih ys pr.1, List.map_flatMap, List.flatMap_map]
    apply flatMap_congr_mem
    intro pr3 hpr3
    rw [List.map_map]
    apply List.map_congr_left
    intro pr2 hpr2
    show (pr2.1, pr.2 ++ (pr3.2 ++ pr2.2)) = (pr2.1, (pr.2 ++ pr3.2) ++ pr2.2)
    rw [List.append_assoc]

theorem itemsMatches_singleton (i : RItem) (s : List Char) :
    itemsMatches [i] s = itemMatches i s := by
  rw [itemsMatches]
  have : ∀ pr ∈ itemMatches i s,
      (itemsMatches ([] : List RItem) pr.1).map
        (fun pr2 => (pr2.1, pr.2 ++ pr2.2)) = [pr] := by
    intro pr _
    rw [itemsMatches, List.map_singleton, List.append_nil]
  rw [flatMap_congr_mem _ _ _ this, flatMap_id_singleton]

theorem itemsMatches_single_query_noq (r : List Char) (hr : r.head? ≠ some '?') :
    itemsMatches [queryItem] r = [(r, [none])] := by
  rw [itemsMatches_singleton]
  cases r with
  | nil => rfl
  | cons c rt =>
    have hc : c ≠ '?' := fun he => hr (by rw [he]; rfl)
    rw [queryItem, itemMatches]
    rw [show atomsMatches [RAtom.lit '?', RAtom.clsStar queryRanges] (c :: rt) =
        (atomMatches (RAtom.lit '?') (c :: rt)).flatMap
          (atomsMatches [RAtom.clsStar queryRanges]) from rfl]
    rw [show atomMatches (RAtom.lit '?') (c :: rt) =
        (if c = '?' then [rt] else []) from rfl]
    rw [if_neg hc, List.flatMap_nil, List.map_nil, List.nil_append]

theorem itemsMatches_single_query_full (qs : List Char)
    (hqs : ∀ c ∈ qs, inClass queryRanges c = true) :
    ∃ tail, itemsMatches [queryItem] ('?' :: qs) =
      ([], [some ('?' :: qs)]) :: tail := by
  rw [itemsMatches_singleton]
  have htake : qs.takeWhile (inClass queryRanges) = qs :=
    List.takeWhile_eq_self_iff.mpr hqs
  have hstar : ∃ t0, starSuffixes queryRanges qs = [] :: t0 := by
    refine ⟨List.map (fun j => qs.drop (qs.length - j))
      (List.map Nat.succ (List.range qs.length)), ?_⟩
    simp only [starSuffixes, htake, List.range_succ_eq_map, List.map_cons,
      Nat.sub_zero, List.drop_length]
  obtain ⟨t0, hstar⟩ := hstar
  have hatoms : atomsMatches [RAtom.lit '?', RAtom.clsStar queryRanges] ('?' :: qs) =
      [] :: t0 := by
    rw [show atomsMatches [RAtom.lit '?', RAtom.clsStar queryRanges] ('?' :: qs) =
        (atomMatches (RAtom.lit '?') ('?' :: qs)).flatMap
          (atomsMatches [RAtom.clsStar queryRanges]) from rfl]
    rw [show atomMatches (RAtom.lit '?') ('?' :: qs) = [qs] from by
      rw [show atomMatches (RAtom.lit '?') ('?' :: qs) =
        (if '?' = '?' then [qs] else []) from rfl, if_pos rfl]]
    rw [List.flatMap_singleton]
    rw [show atomsMatches [RAtom.clsStar queryRanges] qs =
        (atomMatches (RAtom.clsStar queryRanges) qs).flatMap
          (atomsMatches ([] : List RAtom)) from rfl]
    rw [show atomMatches (RAtom.clsStar queryRanges) qs =
        starSuffixes queryRanges qs from rfl]
    have : ∀ r ∈ starSuffixes queryRanges qs,
        atomsMatches ([] : List RAtom) r = [r] := by
      intro r _
      rw [atomsMatches]
    rw [flatMap_congr_mem _ _ _ this, flatMap_id_singleton, hstar]
  rw [queryItem, itemMatches, hatoms, List.map_cons, List.cons_append]
  have hcons : consumedBy ('?' :: qs) [] = '?' :: qs := by
    simp [consumedBy, List.take_length]
  rw [hcons]
  exact ⟨_, rfl⟩

theorem query_scan (qs : List Char) (hqs : ∀ c ∈ qs, inClass queryRanges c = true) :
    ∀ (B : List (List Char × List (Option (List Char)))),
      (∀ pr ∈ B, '?' ∉ pr.1) →
      ((B.flatMap (fun pr => (itemsMatches [queryItem] (pr.1 ++ '?' :: qs)).map
          (fun pr2 => (pr2.1, pr.2 ++ pr2.2)))).filter
            (fun pr => pr.1.isEmpty)).head?.map Prod.snd =
      Option.map (fun caps => caps.dropLast ++ [some ('?' :: qs)])
        (((B.flatMap (fun pr => (itemsMatches [queryItem] pr.1).map
            (fun pr2 => (pr2.1, pr.2 ++ pr2.2)))).filter
              (fun pr => pr.1.isEmpty)).head?.map Prod.snd) := by
  intro B
  induction B with
  | nil => intro _; rfl
  | cons pr B' ih =>
    intro hB
    have hpr1 : '?' ∉ pr.1 := hB pr (List.mem_cons_self _ _)
    have hB' : ∀ x ∈ B', '?' ∉ x.1 := fun x hx => hB x (List.mem_cons_of_mem _ hx)
    rw [List.flatMap_cons, List.flatMap_cons, List.filter_append, List.filter_append]
    cases hc1 : pr.1 with
    | nil =>
      obtain ⟨tail, htail⟩ := itemsMatches_single_query_full qs hqs
      have hp1 : itemsMatches [queryItem] ([] : List Char) = [([], [none])] :=
        itemsMatches_single_query_noq [] (fun hcon => by cases hcon)
      rw [List.nil_append, htail, hp1]
      simp [List.dropLast_concat]
    | cons c rt =>
      have hc : c ≠ '?' := by
        intro he
        exact hpr1 (by rw [hc1, he]; exact List.mem_cons_self _ _)
      have hq1 : itemsMatches [queryItem] ((c :: rt) ++ '?' :: qs) =
          [((c :: rt) ++ '?' :: qs, [none])] :=
        itemsMatches_single_query_noq _ (by simp [hc])
      have hp1 : itemsMatches [queryItem] (c :: rt) = [((c :: rt), [none])] :=
        itemsMatches_single_query_noq _ (by simp [hc])
      rw [hq1, hp1]
      simpa using ih hB'

theorem reCaptures_body_query (body : List RItem) (hbody : ∀ i ∈ body, noQItem i)
    (p : List Char) (hp : '?' ∉ p) (qs : List Char)
    (hqs : ∀ c ∈ qs, inClass queryRanges c = true) :
    reCaptures (body ++ [queryItem]) (p ++ '?' :: qs) =
      Option.map (fun caps => caps.dropLast ++ [some ('?' :: qs)])
        (reCaptures (body ++ [queryItem]) p) := by
  rw [reCaptures, reCaptures]
  rw [itemsMatches_append_items body [queryItem] (p ++ '?' :: qs),
    itemsMatches_append_items body [queryItem] p]
  rw [itemsMatches_append_q body hbody p ('?' :: qs) hp rfl]
  rw [List.flatMap_map]
  have hB : ∀ pr ∈ itemsMatches body p, '?' ∉ pr.1 :=
    fun pr hpr hm => hp ((itemsMatches_suffix body p pr hpr).subset hm)
  exact query_scan qs hqs (itemsMatches body p) hB

theorem reCaptures_body_shape (body : List RItem) (p : List Char) (hp : '?' ∉ p)
    (caps : List (Option (List Char)))
    (h : reCaptures (body ++ [queryItem]) p = some caps) :
    ∃ bodyCaps, caps = bodyCaps ++ [none] ∧ bodyCaps.length = countGroups body := by
  obtain ⟨pr, hmem, hsnd, hfst⟩ := reCaptures_mem _ p caps h
  rw [itemsMatches_append_items body [queryItem] p, List.mem_flatMap] at hmem
  obtain ⟨pr1, h1, h2⟩ := hmem
  rw [List.mem_map] at h2
  obtain ⟨pr2, hm2, hpr⟩ := h2
  have hq : itemsMatches [queryItem] pr1.1 = [(pr1.1, [none])] := by
    apply itemsMatches_single_query_noq pr1.1
    intro hcon
    have hmem1 : '?' ∈ pr1.1 := by
      cases hl : pr1.1 with
      | nil => rw [hl] at hcon; cases hcon
      | cons c0 t0 =>
        rw [hl] at hcon
        have hc0 : c0 = '?' := by simpa using hcon
        rw [hc0]
        exact List.mem_cons_self _ _
    exact hp ((itemsMatches_suffix body p pr1 h1).subset hmem1)
  rw [hq, List.mem_singleton] at hm2
  subst hm2
  refine ⟨pr1.2, ?_, itemsMatches_caps_length body p pr1 h1⟩
  rw [← hsnd, ← hpr]

theorem is_match_body_query (body : List RItem) (hbody : ∀ i ∈ body, noQItem i)
    (p : List Char) (hp : '?' ∉ p) (qs : List Char)
    (hqs : ∀ c ∈ qs, inClass queryRanges c = true) :
    is_match (body ++ [queryItem]) (p ++ '?' :: qs) =
      is_match (body ++ [queryItem]) p := by
  rw [is_match, is_match, reCaptures_body_query body hbody p hp qs hqs,
    Option.isSome_map']

theorem foldl_congr_mem {α β : Type} (f g : β → α → β) : ∀ (l : List α) (b : β),
    (∀ a ∈ l, ∀ acc, f acc a = g acc a) → l.foldl f b = l.foldl g b := by
  intro l
  induction l with
  | nil => intro b _; rfl
  | cons a l' ih =>
    intro b h
    rw [List.foldl_cons, List.foldl_cons, h a (List.mem_cons_self _ _) b]
    exact ih _ (fun x hx acc => h x (List.mem_cons_of_mem _ hx) acc)

theorem hmInsert_mem {α : Type} (y : String × α) : ∀ (m : List (String × α)) (k : String)
    (v : α), y ∈ hmInsert m k v → y = (k, v) ∨ y ∈ m := by
  intro m
  induction m with
  | nil =>
    intro k v h
    rw [hmInsert, List.mem_singleton] at h
    exact Or.inl h
  | cons pr0 m' ih =>
    obtain ⟨k0, v0⟩ := pr0
    intro k v h
    rw [hmInsert] at h
    by_cases h0 : k0 = k
    · rw [if_pos h0] at h
      rcases List.mem_cons.mp h with h1 | h1
      · exact Or.inl h1
      · exact Or.inr (List.mem_cons_of_mem _ h1)
    · rw [if_neg h0] at h
      rcases List.mem_cons.mp h with h1 | h1
      · exact Or.inr (by rw [h1]; exact List.mem_cons_self _ _)
      · rcases ih k v h1 with h2 | h2
        · exact Or.inl h2
        · exact Or.inr (List.mem_cons_of_mem _ h2)

theorem foldl_hmInsert_mem {α : Type} (y : String × α) :
    ∀ (pairs m : List (String × α)),
      y ∈ pairs.foldl (fun acc nv => hmInsert acc nv.1 nv.2) m →
      y ∈ m ∨ y ∈ pairs := by
  intro pairs
  induction pairs with
  | nil => intro m h; exact Or.inl h
  | cons a ps ih =>
    intro m h
    rw [List.foldl_cons] at h
    rcases ih _ h with h1 | h1
    · rcases hmInsert_mem y m a.1 a.2 h1 with h2 | h2
      · refine Or.inr ?_
        rw [h2, Prod.mk.eta]
        exact List.mem_cons_self _ _
      · exact Or.inl h2
    · exact Or.inr (List.mem_cons_of_mem _ h1)

theorem get_variable_info_pos_lt (p : List Char) :
    ∀ kv ∈ get_variable_info p, kv.2 < (collectVarNames p).length := by
  intro kv hkv
  rw [get_variable_info] at hkv
  rcases foldl_hmInsert_mem kv _ [] hkv with h1 | h1
  · cases h1
  · rw [List.mem_map] at h1
    obtain ⟨iv, hiv, hkv2⟩ := h1
    obtain ⟨j, a⟩ := iv
    rw [List.mk_mem_enum_iff_getElem?] at hiv
    have hj : j < (collectVarNames p).length := by
      cases hjl : decide (j < (collectVarNames p).length) with
      | true => exact of_decide_eq_true hjl
      | false =>
        rw [List.getElem?_eq_none (Nat.le_of_not_lt (of_decide_eq_false hjl))] at hiv
        cases hiv
    rw [← hkv2]
    exact hj

theorem noQItem_tokItem (t : PatTok) (ht : TokOk t) : noQItem (tokItem t) := by
  cases t with
  | lit c =>
    obtain ⟨hr, _, _⟩ := ht
    exact routeChar_char_ne c '?' (by decide) hr
  | star =>
    show inClass varRanges '?' = false
    decide
  | dstar =>
    show inClass varSlashRanges '?' = false
    decide
  | varTok n =>
    intro a ha
    rw [List.mem_singleton] at ha
    rw [ha]
    show inClass varRanges '?' = false
    decide

/-- C7 counterexample: the pattern `foo` compiles, its matcher accepts the
path `foo?a` (the optional trailing query group absorbs `?a`), and `?b` is
a well-formed query suffix (`?` followed by characters from
`[a-zA-Z0-9_=&-]`), yet the matcher rejects `foo?a` with `?b` appended: a
path that already carries a query string cannot absorb a second `?`, so
appending a query suffix to an accepted path is not always accepted. -/
theorem c7_query_suffix_counterexample :
    ∃ re, create_regex "foo".data = some re ∧
      is_match re "foo?a".data = true ∧
      "?b".data.head? = some '?' ∧
      (∀ c ∈ "b".data, inClass queryRanges c = true) ∧
      is_match re ("foo?a".data ++ "?b".data) = false := by
  refine ⟨(create_regex "foo".data).getD [], by decide, by decide, by decide, by decide,
    by decide⟩

/-- C7 amended: for a route-syntax pattern `P`, a path `p` that does not
itself contain a `?`, and a query suffix `?qs` with `qs` drawn from
`[a-zA-Z0-9_=&-]`, the compiled matcher accepts `p ++ ?qs` exactly when it
accepts `p`, and on the single-route router for `P` the parameter mapping
extracted from the suffixed path equals the one extracted from `p`. -/
theorem c7_query_suffix_amended (P : List Char) (hP : ∀ c ∈ P, routeChar c = true)
    (re : RE) (hre : create_regex P = some re)
    (p : List Char) (hp : '?' ∉ p)
    (qs : List Char) (hqs : ∀ c ∈ qs, inClass queryRanges c = true)
    (rt : Router Nat) (hrt : buildRouter [(Method.GET, P, (0 : Nat))] = some rt) :
    is_match re (p ++ '?' :: qs) = is_match re p ∧
    (rt.match_route Method.GET (p ++ '?' :: qs)).map (fun res => res.params) =
      (rt.match_route Method.GET p).map (fun res => res.params) := by
  have hre2 : re = (patToks P).map tokItem ++ [queryItem] := by
    have hcc := create_regex_toks P hP
    rw [hre] at hcc
    exact Option.some.inj hcc
  have hbody : ∀ i ∈ (patToks P).map tokItem, noQItem i := by
    intro i hi
    rw [List.mem_map] at hi
    obtain ⟨t, ht, hti⟩ := hi
    rw [← hti]
    exact noQItem_tokItem t (patToks_tokOk P hP t ht)
  have hmatch : is_match re (p ++ '?' :: qs) = is_match re p := by
    rw [hre2]
    exact is_match_body_query _ hbody p hp qs hqs
  refine ⟨hmatch, ?_⟩
  have hroute : rt.routes =
      [{ path := P, method := Method.GET, handler := 0,
         variable_infos := get_variable_info P, matcher := re }] := by
    simp only [buildRouter, List.foldlM_cons, List.foldlM_nil] at hrt
    rw [Router.add_route, hre] at hrt
    simp only [List.nil_append, Option.some_bind] at hrt
    have hrt2 := Option.some.inj hrt
    rw [← hrt2]
  rw [Router.match_route, Router.match_route, hroute]
  cases hm : is_match re p with
  | false =>
    rw [List.find?_cons_of_neg _ (by simp [hmatch, hm]),
      List.find?_cons_of_neg _ (by simp [hm])]
    rfl
  | true =>
    rw [List.find?_cons_of_pos _ (by simp [hmatch, hm]),
      List.find?_cons_of_pos _ (by simp [hm])]
    have hm' : (reCaptures re p).isSome = true := by
      rw [is_match] at hm
      exact hm
    obtain ⟨caps, hcaps⟩ := Option.isSome_iff_exists.mp hm'
    have hq : reCaptures re (p ++ '?' :: qs) =
        some (caps.dropLast ++ [some ('?' :: qs)]) := by
      rw [hre2, reCaptures_body_query _ hbody p hp qs hqs, ← hre2, hcaps]
      rfl
    obtain ⟨bodyCaps, hshape, hblen⟩ :=
      reCaptures_body_shape ((patToks P).map tokItem) p hp caps
        (by rw [← hre2]; exact hcaps)
    have hparams : ∀ nv ∈ get_variable_info P, ∀ acc : List (String × String),
        hmInsert acc nv.1
          (String.mk (((caps.dropLast ++ [some ('?' :: qs)]).getD nv.2 none).getD [])) =
        hmInsert acc nv.1 (String.mk ((caps.getD nv.2 none).getD [])) := by
      intro nv hnv acc
      have hlt : nv.2 < bodyCaps.length := by
        rw [hblen, countGroups_map_tokItem, ← collectVars_toks]
        exact get_variable_info_pos_lt P nv hnv
      have h1 : (caps.dropLast ++ [some ('?' :: qs)]).getD nv.2 none =
          bodyCaps.getD nv.2 none := by
        rw [hshape, List.dropLast_concat]
        exact List.getD_append _ _ _ _ hlt
      have h2 : caps.getD nv.2 none = bodyCaps.getD nv.2 none := by
        rw [hshape]
        exact List.getD_append _ _ _ _ hlt
      rw [h1, h2]
    simp only [Option.some_bind]
    rw [hq, hcaps]
    simp only [Option.map_some']
    congr 1
    exact foldl_congr_mem _ _ _ [] hparams

/-- closed witness for the amended query-suffix claim: at the pattern
`/foo/:uid`, the path `/foo/4711` and the query suffix `?x=1`, acceptance
and the extracted parameters are unchanged by the suffix. -/
theorem c7_query_suffix_amended_witness :
    is_match ((create_regex "/foo/:uid".data).getD [])
        ("/foo/4711".data ++ '?' :: "x=1".data) =
      is_match ((create_regex "/foo/:uid".data).getD []) "/foo/4711".data ∧
    (((buildRouter [(Method.GET, "/foo/:uid".data, (0 : Nat))]).getD
        ⟨[]⟩).match_route Method.GET
          ("/foo/4711".data ++ '?' :: "x=1".data)).map (fun res => res.params) =
      (((buildRouter [(Method.GET, "/foo/:uid".data, (0 : Nat))]).getD
        ⟨[]⟩).match_route Method.GET "/foo/4711".data).map (fun res => res.params) :=
  c7_query_suffix_amended "/foo/:uid".data (by decide)
    ((create_regex "/foo/:uid".data).getD []) (by decide)
    "/foo/4711".data (by decide)
    "x=1".data (by decide)
    ((buildRouter [(Method.GET, "/foo/:uid".data, (0 : Nat))]).getD ⟨[]⟩) (by decide)

end Floor
